import Mathlib

/-!
A shallow embedding of the dendrogram construction algorithm of
`astrodendro/dendrogram.py` (`Dendrogram._compute`), together with proofs
about its per-voxel scan, its pruning pass and its assembly step.

Modelling conventions:

* Flux values are integers (`Int`): the algorithm only compares, subtracts
  and takes min/max of sample values, so any linearly ordered additive
  group models them; `Int` keeps every definition kernel-computable.
  (Floating-point `NaN`/infinity behaviour is outside this model.)
* The padded index array (`self.index_map`, shaped `data.shape + (1,1,1)`)
  is a total function `Nat → Nat → Nat → Nat`; cell `(a,b,d)` is meaningful
  for `a ≤ nz`, `b ≤ ny`, `d ≤ nx`, and the planes `a = nz`, `b = ny`,
  `d = nx` are the sentinel planes.  Negative python indices are resolved
  by `pyWrap` exactly as python resolves them on an axis of length `n+1`.
* The `items` dict is an insertion-ordered association list; the
  `ancestor` dict is a total function `Nat → Option Nat` in which an
  absent key and an entry holding python's `None` coincide as `none`
  (the source never distinguishes them: every id it looks up has an entry).
* `Leaf`, `Branch`, `add_point`, `merge` and `add_footprint` live in
  `components.py`, which is not among the sources; their behaviour is
  modelled from the spec (§4.2): `add_point` appends a voxel and updates
  `npix`/`fmin`/`fmax`, `merge` absorbs the other's voxels and statistics,
  `add_footprint` stamps a value over the item's owned voxels.
* The iteration order of a python `set` (`adjacent = list(set(adjacent))`)
  is implementation-defined; we model the deduplication as returning the
  distinct ids in ascending order, the determinisation the spec pins down.
* `np.argsort` with its default sort kind is only stable on small inputs
  (numpy switches to insertion sort there); we model the stable ascending
  argsort, whose reversal the source then iterates.
-/

/-- A voxel coordinate `(z, y, x)`. -/
abbrev Coord := Nat × Nat × Nat

/-- The padded index grid, as a total function on storage coordinates. -/
abbrev Grid := Nat → Nat → Nat → Nat

/-- Read the grid at a storage coordinate. -/
def readCube (m : Grid) (c : Coord) : Nat := m c.1 c.2.1 c.2.2

/-- Python index resolution on an axis of padded length `n + 1`: a negative
index `i` addresses cell `i + (n + 1)`. -/
def pyWrap (n : Nat) (i : Int) : Nat :=
  if i < 0 then (i + (n + 1)).toNat else i.toNat

/-- Whether `i` is a valid python index into an axis of padded length `n+1`. -/
def pyInBounds (n : Nat) (i : Int) : Prop :=
  -((n : Int) + 1) ≤ i ∧ i ≤ (n : Int)

/-- Read `self.index_map[c]` for a (possibly negative) integer coordinate. -/
def readPadded (nz ny nx : Nat) (m : Grid) (c : Int × Int × Int) : Nat :=
  m (pyWrap nz c.1) (pyWrap ny c.2.1) (pyWrap nx c.2.2)

/-- Write `self.index_map[z, y, x] = v` at an in-cube coordinate. -/
def writeCube (m : Grid) (c : Coord) (v : Nat) : Grid :=
  fun a b d => if a = c.1 ∧ b = c.2.1 ∧ d = c.2.2 then v else m a b d

/-- The `add_footprint` write: stamp the value `v` over a list of voxels. -/
def stampVoxels (m : Grid) (vs : List Coord) (v : Nat) : Grid :=
  vs.foldl (fun acc c => writeCube acc c v) m

/-- The six axis-aligned neighbours of `(z,y,x)`, in the source's order:
`[(z,y,x-1),(z,y,x+1),(z,y-1,x),(z,y+1,x),(z-1,y,x),(z+1,y,x)]`. -/
def neighborCoords (c : Coord) : List (Int × Int × Int) :=
  [((c.1 : Int), (c.2.1 : Int), (c.2.2 : Int) - 1),
   ((c.1 : Int), (c.2.1 : Int), (c.2.2 : Int) + 1),
   ((c.1 : Int), (c.2.1 : Int) - 1, (c.2.2 : Int)),
   ((c.1 : Int), (c.2.1 : Int) + 1, (c.2.2 : Int)),
   ((c.1 : Int) - 1, (c.2.1 : Int), (c.2.2 : Int)),
   ((c.1 : Int) + 1, (c.2.1 : Int), (c.2.2 : Int))]

/-- Whether `(z,y,x)` lies outside the data cube of shape `nz × ny × nx`. -/
def outOfCube (nz ny nx : Nat) (c : Int × Int × Int) : Prop :=
  c.1 < 0 ∨ (nz : Int) ≤ c.1 ∨ c.2.1 < 0 ∨ (ny : Int) ≤ c.2.1 ∨
    c.2.2 < 0 ∨ (nx : Int) ≤ c.2.2

/-- A structure ("item"): a Leaf or a Branch.  The fields follow the spec's
data model (§3): the variant tag, the running statistics, the directly owned
voxel list (seed first) and, for a branch, the ids of its children. -/
structure Item where
  isLeaf : Bool
  npix : Nat
  fmin : Int
  fmax : Int
  voxels : List Coord
  children : List Nat
deriving DecidableEq

/-- The `Leaf(x, y, z, flux)` constructor: a fresh leaf seeded with one voxel. -/
def newLeaf (c : Coord) (f : Int) : Item :=
  { isLeaf := true, npix := 1, fmin := f, fmax := f, voxels := [c], children := [] }

/-- Modelled from the spec (`components.py` is missing): `add_point` appends
the voxel and updates `npix`, `fmin`, `fmax`. -/
def Item.addPoint (it : Item) (c : Coord) (f : Int) : Item :=
  { it with npix := it.npix + 1, fmin := min it.fmin f, fmax := max it.fmax f,
            voxels := it.voxels ++ [c] }

/-- Modelled from the spec (`components.py` is missing): `merge` absorbs the
other's voxels and statistics into `self`. -/
def Item.mergeIn (it other : Item) : Item :=
  { it with npix := it.npix + other.npix, fmin := min it.fmin other.fmin,
            fmax := max it.fmax other.fmax, voxels := it.voxels ++ other.voxels }

/-- Modelled from the spec (`components.py` is missing): the `Branch`
constructor.  It is seeded with the merge voxel; `npix` counts the recursive
footprint (spec §8, invariant 2) and `fmin`/`fmax` fold the children's
statistics with the seed flux (spec §3 invariants). -/
def newBranch (kids : List Item) (kidIds : List Nat) (c : Coord) (f : Int) : Item :=
  { isLeaf := false,
    npix := 1 + (kids.map Item.npix).sum,
    fmin := kids.foldl (fun m k => min m k.fmin) f,
    fmax := kids.foldl (fun m k => max m k.fmax) f,
    voxels := [c], children := kidIds }

/-- Look up `items[k]` in the insertion-ordered table. -/
def lookupItem : List (Nat × Item) → Nat → Option Item
  | [], _ => none
  | (k, it) :: r, k0 => if k = k0 then some it else lookupItem r k0

/-- Assign `items[k] = it`: replace the binding if present, else append it. -/
def setItem : List (Nat × Item) → Nat → Item → List (Nat × Item)
  | [], k0, it0 => [(k0, it0)]
  | (k, it) :: r, k0, it0 =>
      if k = k0 then (k0, it0) :: r else (k, it) :: setItem r k0 it0

/-- The `items.pop(k)` operation: remove the binding of key `k0`. -/
def popItem : List (Nat × Item) → Nat → List (Nat × Item)
  | [], _ => []
  | (k, it) :: r, k0 => if k = k0 then popItem r k0 else (k, it) :: popItem r k0

/-- The `ancestor` dict, as a total function. -/
abbrev AncMap := Nat → Option Nat

/-- One-step resolution (source lines 106-108): replace an id by its recorded
ancestor when that entry is not `None`. -/
def singleStepAnc (anc : AncMap) (a : Nat) : Nat :=
  match anc a with
  | some p => p
  | none => a

/-- Full resolution of the ancestor chain, with explicit fuel. -/
def resolveFuel (anc : AncMap) : Nat → Nat → Nat
  | 0, a => a
  | n + 1, a =>
      match anc a with
      | some p => resolveFuel anc n p
      | none => a

/-- Insert into an ascending duplicate-free list of ids. -/
def insertSortedDedup (a : Nat) : List Nat → List Nat
  | [] => [a]
  | b :: r =>
      if a < b then a :: b :: r
      else if a = b then b :: r
      else b :: insertSortedDedup a r

/-- Deduplication, `adjacent = list(set(adjacent))`.  A python set's iteration
order is implementation-defined; following the spec's determinisation (§4.4,
§9) the distinct members are returned in ascending order. -/
def dedupSorted (l : List Nat) : List Nat :=
  l.foldl (fun acc a => insertSortedDedup a acc) []

/-- The merge-time significance test (source lines 156-160): an adjacent id
goes into `merge` iff its item is a Leaf and
`npix < minimum_npix or fmax - flux < minimum_delta`. -/
def isInsig (its : List (Nat × Item)) (mnp : Int) (md : Int) (f : Int) (a : Nat) : Bool :=
  match lookupItem its a with
  | some it => it.isLeaf && (decide ((it.npix : Int) < mnp) || decide (it.fmax - f < md))
  | none => false

/-- The builder's mutable state: the padded index map, the `items` dict and
the `ancestor` dict. -/
structure BState where
  map : Grid
  items : List (Nat × Item)
  anc : AncMap

/-- One merge of an insignificant leaf `m` onto the reference structure:
`removed = items.pop(m); ref.merge(removed);
removed.add_footprint(index_map, refId)`. -/
def absorbOne (refId : Nat) (st : BState) (m : Nat) : BState :=
  match lookupItem st.items m, lookupItem st.items refId with
  | some removed, some ref =>
      { st with
        items := setItem (popItem st.items m) refId (ref.mergeIn removed),
        map := stampVoxels st.map removed.voxels refId }
  | _, _ => st

/-- Merge every id of `ms` onto the reference structure, left to right. -/
def absorbInto (refId : Nat) (st : BState) (ms : List Nat) : BState :=
  ms.foldl (absorbOne refId) st

/-- Source lines 254-258, for each `j` in order: `ancestor[j] = idx`, then
rewrite every entry whose value equals `j` to `idx`. -/
def reparentAll (idx : Nat) (olds : List Nat) (anc : AncMap) : AncMap :=
  olds.foldl (fun a j => fun k => if k = j ∨ a k = some j then some idx else a k) anc

/-- The deduplicated list of live ancestor ids adjacent to voxel `c`
(source lines 102-114): read the six neighbours, drop zeros, resolve each
through the ancestor map one step, deduplicate. -/
def adjacentResolved (nz ny nx : Nat) (st : BState) (c : Coord) : List Nat :=
  dedupSorted ((((neighborCoords c).map (readPadded nz ny nx st.map)).filter
      (fun a => a ≠ 0)).map (singleStepAnc st.anc))

/-- One iteration of the per-voxel scan (source lines 83-258).  The pair `p`
carries the index `i` into the filtered flux array together with the voxel's
coordinate and flux; fresh ids are `i + 1` (`next_idx`). -/
def step (nz ny nx : Nat) (mnp : Int) (md : Int) (st : BState)
    (p : Nat × (Coord × Int)) : BState :=
  let i := p.1
  let c := p.2.1
  let f := p.2.2
  let adj := adjacentResolved nz ny nx st c
  match adj with
  | [] =>
      let idx := i + 1
      { map := writeCube st.map c idx,
        items := setItem st.items idx (newLeaf c f),
        anc := fun k => if k = idx then none else st.anc k }
  | [a] =>
      match lookupItem st.items a with
      | none => st
      | some it =>
          { st with items := setItem st.items a (it.addPoint c f),
                    map := writeCube st.map c a }
  | _ :: _ :: _ =>
      let mrg := adj.filter (fun a => isInsig st.items mnp md f a)
      let sig := adj.filter (fun a => !(isInsig st.items mnp md f a))
      match sig with
      | [] =>
          match mrg with
          | [] => st
          | r :: rest =>
              match lookupItem st.items r with
              | none => st
              | some it =>
                  absorbInto r
                    { st with items := setItem st.items r (it.addPoint c f),
                              map := writeCube st.map c r } rest
      | [s] =>
          match lookupItem st.items s with
          | none => st
          | some it =>
              absorbInto s
                { st with items := setItem st.items s (it.addPoint c f),
                          map := writeCube st.map c s } mrg
      | _ :: _ :: _ =>
          let idx := i + 1
          let br := newBranch (sig.filterMap (lookupItem st.items)) sig c f
          let st2 := absorbInto idx
            { map := writeCube st.map c idx,
              items := setItem st.items idx br,
              anc := fun k => if k = idx then none else st.anc k } mrg
          { st2 with anc := reparentAll idx sig st2.anc }

/-- Row-major enumeration of the cube's coordinates. -/
def ravelCoords (nz ny nx : Nat) : List Coord :=
  (List.range nz).flatMap (fun z => (List.range ny).flatMap (fun y =>
    (List.range nx).map (fun x => (z, y, x))))

/-- The filtered `flux_values` and `coords` (source lines 62-64): the voxels whose flux is
strictly above `minimum_flux`, paired with their flux, in row-major order. -/
def keptEntries (nz ny nx : Nat) (flux : Nat → Nat → Nat → Int) (mf : Int) :
    List (Coord × Int) :=
  ((ravelCoords nz ny nx).filter (fun c => mf < flux c.1 c.2.1 c.2.2)).map
    (fun c => (c, flux c.1 c.2.1 c.2.2))

/-- The flux of filtered entry `i` (0 out of range; unused there). -/
def keyOfKept (kept : List (Coord × Int)) (i : Nat) : Int :=
  ((kept.get? i).map Prod.snd).getD 0

/-- Stable ascending insertion of index `i` (larger than every index already
present) into an index list sorted by flux. -/
def insertIdx (key : Nat → Int) (i : Nat) : List Nat → List Nat
  | [] => [i]
  | j :: r => if key j ≤ key i then j :: insertIdx key i r else i :: j :: r

/-- The stable ascending argsort of indices `0 .. n-1` by their key. -/
def argsortAsc (key : Nat → Int) : Nat → List Nat
  | 0 => []
  | n + 1 => insertIdx key n (argsortAsc key n)

/-- The reversed argsort `np.argsort(flux_values)[::-1]` (source line 83): the processing order of
the filtered indices. -/
def procIdx (kept : List (Coord × Int)) : List Nat :=
  (argsortAsc (keyOfKept kept) kept.length).reverse

/-- The processing order paired with each index's voxel and flux. -/
def procPairs (kept : List (Coord × Int)) : List (Nat × (Coord × Int)) :=
  (procIdx kept).filterMap (fun i => (kept.get? i).map (fun e => (i, e)))

/-- The builder's initial state: zeroed index map, no items, no ancestors. -/
def initState : BState :=
  { map := fun _ _ _ => 0, items := [], anc := fun _ => none }

/-- The scan after processing a prefix of the sorted voxel list. -/
def scanPrefix (nz ny nx : Nat) (mnp : Int) (md : Int)
    (l : List (Nat × (Coord × Int))) : BState :=
  l.foldl (step nz ny nx mnp md) initState

/-- The state after the whole Step-1 scan. -/
def scanResult (nz ny nx : Nat) (flux : Nat → Nat → Nat → Int) (mf : Int)
    (mnp : Int) (md : Int) : BState :=
  scanPrefix nz ny nx mnp md (procPairs (keptEntries nz ny nx flux mf))

/-- The Step-2 prune (source lines 263-271): drop every Leaf with
`npix < minimum_npix or fmax - fmin < minimum_delta`.  The source does not
consult the ancestor map here. -/
def pruneItems (mnp : Int) (md : Int) (its : List (Nat × Item)) : List (Nat × Item) :=
  its.filter (fun p =>
    !(p.2.isLeaf && (decide ((p.2.npix : Int) < mnp) || decide (p.2.fmax - p.2.fmin < md))))

/-- The finished dendrogram: trunk ids, the surviving structure table, the
index map and the leaf/branch type map. -/
structure Dendro where
  trunk : List Nat
  items : List (Nat × Item)
  indexMap : Grid
  itemTypeMap : Grid

/-- Step-3 type map (source lines 280-286): 2 over a leaf's voxels, 1 over a
branch's directly-owned voxels (`recursive=False`), 0 elsewhere. -/
def stampTypes (its : List (Nat × Item)) : Grid :=
  its.foldl (fun m p => stampVoxels m p.2.voxels (if p.2.isLeaf then 2 else 1))
    (fun _ _ _ => 0)

/-- Step 3 (source lines 273-286): the trunk is the surviving structures whose
ancestor entry is `None`, in table order; the index map is published as is. -/
def assemble (st : BState) : Dendro :=
  { trunk := (st.items.filter (fun p => st.anc p.1 = none)).map Prod.fst,
    items := st.items,
    indexMap := st.map,
    itemTypeMap := stampTypes st.items }

/-- The body of `Dendrogram._compute` on a (3-D) cube, after the dimensionality dispatch. -/
def compute (nz ny nx : Nat) (flux : Nat → Nat → Nat → Int) (mf : Int)
    (mnp : Int) (md : Int) : Dendro :=
  let sc := scanResult nz ny nx flux mf mnp md
  assemble { sc with items := pruneItems mnp md sc.items }

/-- The construction entry point: the only validation in the source is the
dimensionality check (lines 52-59); a 2-D input is recast with `nz = 1`. -/
def build (rank nz ny nx : Nat) (flux : Nat → Nat → Nat → Int) (mf : Int)
    (mnp : Int) (md : Int) : Except String Dendro :=
  if rank = 2 ∨ rank = 3 then .ok (compute nz ny nx flux mf mnp md)
  else .error "Invalid number of dimensions"

/-- Insertion by an explicit strict "goes before" test. -/
def insertBefore (r : Nat → Nat → Bool) (i : Nat) : List Nat → List Nat
  | [] => [i]
  | j :: t => if r i j then i :: j :: t else j :: insertBefore r i t

/-- Insertion sort by an explicit "goes before" test. -/
def sortByBefore (r : Nat → Nat → Bool) (l : List Nat) : List Nat :=
  l.foldr (insertBefore r) []

/-- The order the spec's words prescribe for Step 0: descending flux, ties
between equal fluxes broken by ascending linear index (cube-row-major
order).  Stated for comparison with `procIdx`. -/
def specStep0Order (kept : List (Coord × Int)) : List Nat :=
  sortByBefore
    (fun i j => decide (keyOfKept kept j < keyOfKept kept i) ||
      (decide (keyOfKept kept i = keyOfKept kept j) && decide (i < j)))
    (List.range kept.length)

/-! ### Concrete inputs used by witnesses and counterexamples -/

/-- A 1×1×4 row `[10, 9, 6, 20]`: two significant leaves merging at flux 6. -/
def c2flux : Nat → Nat → Nat → Int := fun _ _ x =>
  match x with
  | 0 => 10 | 1 => 9 | 2 => 6 | _ => 20

/-- A 1×1×3 row `[2, 0, 3]`: two disconnected peaks (with `min_flux = 1`). -/
def c5flux : Nat → Nat → Nat → Int := fun _ _ x =>
  match x with
  | 0 => 2 | 1 => 0 | _ => 3

/-- A constant cube: every voxel ties at flux 3. -/
def tieflux : Nat → Nat → Nat → Int := fun _ _ _ => 3

/-- A constant cube of flux 1. -/
def oneflux : Nat → Nat → Nat → Int := fun _ _ _ => 1

/-- A constant cube of flux 0. -/
def zeroflux : Nat → Nat → Nat → Int := fun _ _ _ => 0

/-- The first three processed pairs of the `c2flux` run: the voxels of flux
20, 10 and 9, leaving the merge voxel (index 2, flux 6) next. -/
def c3pairs : List (Nat × (Coord × Int)) :=
  [(3, ((0, 0, 3), 20)), (0, ((0, 0, 0), 10)), (1, ((0, 0, 1), 9))]

/-- The builder state just before the merge voxel of the `c2flux` run. -/
def c3state : BState := scanPrefix 1 1 4 0 2 c3pairs

/-- The inductive invariant of the Step-1 scan, after the pairs with indices
`doneIdx` and coordinates `doneCoords` have been processed:

* `keysNodup`/`keysFrom`: the structure-table keys are distinct and every key
  is `j + 1` for a processed index `j` (hence positive and fresh ids);
* `sentinel`: the sentinel planes of the padded index map are still 0;
* `footprint`: every voxel owned by a live structure is in-cube and its index
  map cell holds that structure's id;
* `unassigned`: unprocessed in-cube cells are still 0;
* `mapVals`: every padded cell holds 0 or `j + 1` for a processed `j`;
* `flat`: the ancestor map has no chains of length two;
* `ancTargets`/`ancKeys`: ancestor entries only mention ids of processed
  creation events. -/
structure ScanInv (nz ny nx : Nat) (doneIdx : List Nat) (doneCoords : List Coord)
    (st : BState) : Prop where
  keysNodup : (st.items.map Prod.fst).Nodup
  keysFrom : ∀ k, (lookupItem st.items k).isSome = true → ∃ j ∈ doneIdx, k = j + 1
  sentinel : ∀ a b d, (a = nz ∨ b = ny ∨ d = nx) → st.map a b d = 0
  footprint : ∀ k it, lookupItem st.items k = some it → ∀ v ∈ it.voxels,
      v.1 < nz ∧ v.2.1 < ny ∧ v.2.2 < nx ∧ readCube st.map v = k
  unassigned : ∀ v : Coord, v.1 < nz → v.2.1 < ny → v.2.2 < nx →
      v ∉ doneCoords → readCube st.map v = 0
  mapVals : ∀ a b d, a ≤ nz → b ≤ ny → d ≤ nx →
      st.map a b d = 0 ∨ ∃ j ∈ doneIdx, st.map a b d = j + 1
  flat : ∀ k p, st.anc k = some p → st.anc p = none
  ancTargets : ∀ k p, st.anc k = some p → ∃ j ∈ doneIdx, p = j + 1
  ancKeys : ∀ k, st.anc k ≠ none → ∃ j ∈ doneIdx, k = j + 1

/-! ### Basic lemmas about the table, grid and deduplication operations -/

theorem lookup_setItem_self (l : List (Nat × Item)) (k : Nat) (it : Item) :
    lookupItem (setItem l k it) k = some it := by
  induction l with
  | nil => simp [setItem, lookupItem]
  | cons p r ih =>
      obtain ⟨k1, it1⟩ := p
      by_cases hk : k1 = k
      · simp [setItem, hk, lookupItem]
      · simp [setItem, hk, lookupItem, ih]

theorem lookup_setItem_ne (l : List (Nat × Item)) (k k2 : Nat) (it : Item)
    (h : k2 ≠ k) : lookupItem (setItem l k it) k2 = lookupItem l k2 := by
  induction l with
  | nil => simp [setItem, lookupItem, Ne.symm h]
  | cons p r ih =>
      obtain ⟨k1, it1⟩ := p
      simp only [setItem]
      by_cases hk : k1 = k
      · simp [hk, lookupItem, Ne.symm h]
      · simp only [if_neg hk, lookupItem]
        by_cases hk2 : k1 = k2
        · simp [hk2]
        · simp [hk2, ih]

theorem lookup_popItem (l : List (Nat × Item)) (k k2 : Nat) :
    lookupItem (popItem l k) k2 = if k2 = k then none else lookupItem l k2 := by
  induction l with
  | nil => simp [popItem, lookupItem]
  | cons p r ih =>
      obtain ⟨k1, it1⟩ := p
      simp only [popItem]
      by_cases hk : k1 = k
      · rw [if_pos hk, ih]
        by_cases h2 : k2 = k
        · simp [h2]
        · have hne : ¬ k1 = k2 := by omega
          simp [h2, hne, lookupItem]
      · rw [if_neg hk]
        simp only [lookupItem]
        by_cases h2 : k1 = k2
        · have hne : ¬ k2 = k := by omega
          simp [h2, hne]
        · simp [h2, ih]

theorem readCube_writeCube (m : Grid) (c w : Coord) (v : Nat) :
    readCube (writeCube m c v) w = if w = c then v else readCube m w := by
  obtain ⟨a, b, d⟩ := w
  obtain ⟨a2, b2, d2⟩ := c
  unfold readCube writeCube
  by_cases h : ((a, b, d) : Coord) = (a2, b2, d2)
  · simp only [Prod.mk.injEq] at h
    simp [h]
  · have hne : ¬ (a = a2 ∧ b = b2 ∧ d = d2) := by
      simpa [Prod.mk.injEq] using h
    simp [h, hne]

theorem readCube_stampVoxels (m : Grid) (vs : List Coord) (v : Nat) (w : Coord) :
    readCube (stampVoxels m vs v) w = if w ∈ vs then v else readCube m w := by
  induction vs generalizing m with
  | nil => simp [stampVoxels]
  | cons c r ih =>
      have hstep : stampVoxels m (c :: r) v = stampVoxels (writeCube m c v) r v := rfl
      rw [hstep, ih, readCube_writeCube]
      by_cases hw : w ∈ r
      · simp [hw]
      · by_cases hc : w = c
        · simp only [if_neg hw, if_pos hc, List.mem_cons]
          simp [hc]
        · simp only [if_neg hw, if_neg hc, List.mem_cons]
          simp [hc, hw]

theorem mem_insertSortedDedup (a b : Nat) (l : List Nat) :
    b ∈ insertSortedDedup a l ↔ b = a ∨ b ∈ l := by
  induction l with
  | nil => simp [insertSortedDedup]
  | cons c r ih =>
      by_cases h1 : a < c
      · simp [insertSortedDedup, h1]
      · by_cases h2 : a = c
        · subst h2
          have he : insertSortedDedup a (a :: r) = a :: r := by
            simp [insertSortedDedup, h1]
          rw [he, List.mem_cons]
          tauto
        · simp [insertSortedDedup, h1, h2, ih]
          tauto

theorem pairwise_insertSortedDedup (a : Nat) (l : List Nat)
    (h : List.Pairwise (· < ·) l) :
    List.Pairwise (· < ·) (insertSortedDedup a l) := by
  induction l with
  | nil => simp [insertSortedDedup]
  | cons c r ih =>
      rcases List.pairwise_cons.mp h with ⟨hc, hr⟩
      by_cases h1 : a < c
      · rw [show insertSortedDedup a (c :: r) = a :: c :: r by
          simp [insertSortedDedup, h1]]
        refine List.pairwise_cons.mpr ⟨?_, h⟩
        intro b hb
        rcases List.mem_cons.mp hb with hb | hb
        · omega
        · exact lt_trans h1 (hc b hb)
      · by_cases h2 : a = c
        · rw [show insertSortedDedup a (c :: r) = c :: r by
            simp [insertSortedDedup, h1, h2]]
          exact h
        · rw [show insertSortedDedup a (c :: r) = c :: insertSortedDedup a r by
            simp [insertSortedDedup, h1, h2]]
          refine List.pairwise_cons.mpr ⟨?_, ih hr⟩
          intro b hb
          rcases (mem_insertSortedDedup a b r).mp hb with hb | hb
          · omega
          · exact hc b hb

theorem pairwise_dedupSorted (l : List Nat) :
    List.Pairwise (· < ·) (dedupSorted l) := by
  have haux : ∀ (l2 : List Nat) (acc : List Nat), List.Pairwise (· < ·) acc →
      List.Pairwise (· < ·) (l2.foldl (fun acc2 a => insertSortedDedup a acc2) acc) := by
    intro l2
    induction l2 with
    | nil => intro acc hacc; simpa using hacc
    | cons a r ih =>
        intro acc hacc
        exact ih (insertSortedDedup a acc) (pairwise_insertSortedDedup a acc hacc)
  exact haux l [] (by simp)

theorem mem_dedupSorted (l : List Nat) (b : Nat) :
    b ∈ dedupSorted l ↔ b ∈ l := by
  have haux : ∀ (l2 : List Nat) (acc : List Nat),
      (b ∈ l2.foldl (fun acc2 a => insertSortedDedup a acc2) acc ↔ b ∈ l2 ∨ b ∈ acc) := by
    intro l2
    induction l2 with
    | nil => intro acc; simp
    | cons a r ih =>
        intro acc
        rw [List.foldl_cons, ih, mem_insertSortedDedup]
        simp
        tauto
  unfold dedupSorted
  rw [haux l []]
  simp

theorem nodup_dedupSorted (l : List Nat) : (dedupSorted l).Nodup :=
  (pairwise_dedupSorted l).imp (fun h => Nat.ne_of_lt h)

/-! ### C1 — merge-time significance classification -/

/-- C1: during the per-voxel scan's multi-way merge over the touching set
`A = adjacentResolved …`, an id `a` with item `it` is classified insignificant
(collected into `merge`) iff `it` is a Leaf and
(`it.npix < min_npix` or `it.fmax - f < min_delta`); a Branch is never
classified insignificant. -/
theorem C1_merge_insignificance (nz ny nx : Nat) (st : BState) (mnp md f : Int)
    (c : Coord) (a : Nat) (it : Item) (h : lookupItem st.items a = some it) :
    (a ∈ (adjacentResolved nz ny nx st c).filter
        (fun b => isInsig st.items mnp md f b) ↔
      (a ∈ adjacentResolved nz ny nx st c ∧ it.isLeaf = true ∧
        ((it.npix : Int) < mnp ∨ it.fmax - f < md))) ∧
    (it.isLeaf = false → isInsig st.items mnp md f a = false) := by
  have hiff : isInsig st.items mnp md f a = true ↔
      (it.isLeaf = true ∧ ((it.npix : Int) < mnp ∨ it.fmax - f < md)) := by
    unfold isInsig
    rw [h]
    simp only [Bool.and_eq_true, Bool.or_eq_true, decide_eq_true_eq]
  constructor
  · rw [List.mem_filter, hiff]
  · intro hl
    cases hb : isInsig st.items mnp md f a with
    | false => rfl
    | true =>
        have hx := (hiff.mp hb).1
        rw [hl] at hx
        exact absurd hx (by decide)

/-- Witness for C1 at a concrete state: a one-leaf table, the significance
test evaluated at flux 5 with `min_npix = 3`. -/
theorem C1_merge_insignificance_wit :
    lookupItem [(2, newLeaf (0, 0, 0) 5)] 2 = some (newLeaf (0, 0, 0) 5) ∧
    ((2 ∈ (adjacentResolved 1 1 1 ⟨fun _ _ _ => 0, [(2, newLeaf (0, 0, 0) 5)], fun _ => none⟩ (0, 0, 0)).filter
        (fun b => isInsig [(2, newLeaf (0, 0, 0) 5)] 3 0 5 b) ↔
      (2 ∈ adjacentResolved 1 1 1 ⟨fun _ _ _ => 0, [(2, newLeaf (0, 0, 0) 5)], fun _ => none⟩ (0, 0, 0) ∧
        (newLeaf (0, 0, 0) 5).isLeaf = true ∧
        (((newLeaf (0, 0, 0) 5).npix : Int) < 3 ∨ (newLeaf (0, 0, 0) 5).fmax - 5 < 0))) ∧
    ((newLeaf (0, 0, 0) 5).isLeaf = false → isInsig [(2, newLeaf (0, 0, 0) 5)] 3 0 5 2 = false)) :=
  ⟨by decide,
   C1_merge_insignificance 1 1 1 ⟨fun _ _ _ => 0, [(2, newLeaf (0, 0, 0) 5)], fun _ => none⟩
     3 0 5 (0, 0, 0) 2 (newLeaf (0, 0, 0) 5) (by decide)⟩

/-! ### C2 — the post-pass prune also drops non-root leaves -/

/-- C2 (code bug): on the 1×1×4 row `[10, 9, 6, 20]` with `min_flux = 0`,
`min_npix = 0`, `min_delta = 2`, the scan builds branch 3 with child leaves
1 and 4 (`ancestor[1] = 3 ≠ none`), yet the Step-2 prune removes leaf 1
(and leaf 4) from the structure table: the prune tests every Leaf, not only
root leaves with `ancestor[id] = none`. -/
theorem C2_prune_drops_child_leaf :
    (scanResult 1 1 4 c2flux 0 0 2).anc 1 = some 3 ∧
    ((lookupItem (scanResult 1 1 4 c2flux 0 0 2).items 1).map Item.isLeaf = some true) ∧
    lookupItem (pruneItems 0 2 (scanResult 1 1 4 c2flux 0 0 2).items) 1 = none ∧
    (compute 1 1 4 c2flux 0 0 2).items.map Prod.fst = [3] := by decide

/-! ### C4 — Step 0 ordering -/

/-- C4 (counterexample): on a 1×1×2 cube of two equal fluxes the code
processes filtered index 1 before index 0 — reversing a stable ascending
argsort breaks ties by *descending* linear index — while the spec's
tie-break (ascending cube-row-major index) would process 0 first. -/
theorem C4_order_counterexample :
    procIdx (keptEntries 1 1 2 tieflux 0) = [1, 0] ∧
    specStep0Order (keptEntries 1 1 2 tieflux 0) = [0, 1] ∧
    procIdx (keptEntries 1 1 2 tieflux 0) ≠ specStep0Order (keptEntries 1 1 2 tieflux 0) := by
  decide

/-! ### C5 — ids are not monotonically increasing in creation order -/

/-- C5 (counterexample): on the 1×1×3 row `[2, 0, 3]` with `min_flux = 1`,
the two kept voxels have filtered indices 0 and 1; the scan first creates
leaf id 2 (for the brighter voxel at index 1) and then leaf id 1, so the
creation-order id sequence `[2, 1]` is not monotonically increasing. -/
theorem C5_ids_counterexample :
    (scanResult 1 1 3 c5flux 1 0 0).items.map Prod.fst = [2, 1] ∧
    ¬ List.Pairwise (· < ·) ((scanResult 1 1 3 c5flux 1 0 0).items.map Prod.fst) := by
  have he : (scanResult 1 1 3 c5flux 1 0 0).items.map Prod.fst = [2, 1] := by decide
  refine ⟨he, fun hp => ?_⟩
  rw [he] at hp
  have h2 : (2 : Nat) < 1 := (List.pairwise_cons.mp hp).1 1 (by simp)
  omega

/-! ### C6 — threshold validation -/

/-- C6 (counterexample): `build` does not fail on negative thresholds: with
`min_npix = -1` and `min_delta = -1` it still returns a dendrogram. -/
theorem C6_validation_counterexample :
    (build 3 1 1 1 oneflux 0 (-1) (-1)).toOption.isSome = true := rfl

/-- C6 (amended): the only structured error `build` raises is the
dimensionality check: it succeeds iff the input rank is 2 or 3, regardless
of the thresholds (negative `min_npix`/`min_delta` are accepted). -/
theorem C6_validation (rank nz ny nx : Nat) (flux : Nat → Nat → Nat → Int)
    (mf mnp md : Int) :
    (build rank nz ny nx flux mf mnp md).toOption.isSome = true ↔
      (rank = 2 ∨ rank = 3) := by
  unfold build
  by_cases h : rank = 2 ∨ rank = 3
  · rw [if_pos h]
    exact ⟨fun _ => h, fun _ => rfl⟩
  · rw [if_neg h]
    exact ⟨fun hc => absurd hc (by decide), fun hc => absurd hc h⟩

/-! ### C7 — empty input gives an empty dendrogram, not an error -/

/-- C7: when no voxel's flux exceeds `min_flux`, `compute` succeeds and
returns the empty dendrogram: empty trunk, empty structure table, all-zero
index map and all-zero type map. -/
theorem C7_empty_input (nz ny nx : Nat) (flux : Nat → Nat → Nat → Int)
    (mf mnp md : Int)
    (h : ∀ c ∈ ravelCoords nz ny nx, flux c.1 c.2.1 c.2.2 ≤ mf) :
    (compute nz ny nx flux mf mnp md).trunk = [] ∧
    (compute nz ny nx flux mf mnp md).items = [] ∧
    (∀ a b d, (compute nz ny nx flux mf mnp md).indexMap a b d = 0) ∧
    (∀ a b d, (compute nz ny nx flux mf mnp md).itemTypeMap a b d = 0) := by
  have hkept : keptEntries nz ny nx flux mf = [] := by
    unfold keptEntries
    rw [List.filter_eq_nil_iff.mpr ?_]
    · rfl
    · intro c hc
      simpa using not_lt.mpr (h c hc)
  have hcomp : compute nz ny nx flux mf mnp md =
      assemble { map := fun _ _ _ => 0, items := [], anc := fun _ => none } := by
    unfold compute scanResult
    rw [hkept]
    rfl
  rw [hcomp]
  exact ⟨rfl, rfl, fun a b d => rfl, fun a b d => rfl⟩

/-- Witness for C7: the all-zero 1×1×1 cube with `min_flux = 0`. -/
theorem C7_empty_input_wit :
    (∀ c ∈ ravelCoords 1 1 1, zeroflux c.1 c.2.1 c.2.2 ≤ 0) ∧
    ((compute 1 1 1 zeroflux 0 0 0).trunk = [] ∧
     (compute 1 1 1 zeroflux 0 0 0).items = [] ∧
     (∀ a b d, (compute 1 1 1 zeroflux 0 0 0).indexMap a b d = 0) ∧
     (∀ a b d, (compute 1 1 1 zeroflux 0 0 0).itemTypeMap a b d = 0)) :=
  ⟨by decide, C7_empty_input 1 1 1 zeroflux 0 0 0 (by decide)⟩

/-! ### Lemmas about `absorbInto` and `reparentAll` -/

theorem absorbInto_cons (refId m0 : Nat) (st : BState) (r : List Nat) :
    absorbInto refId st (m0 :: r) = absorbInto refId (absorbOne refId st m0) r := rfl

theorem absorbOne_anc (refId m : Nat) (st : BState) :
    (absorbOne refId st m).anc = st.anc := by
  unfold absorbOne
  rcases lookupItem st.items m with _ | removed <;>
    rcases lookupItem st.items refId with _ | ref <;> rfl

theorem absorbInto_anc (refId : Nat) (ms : List Nat) (st : BState) :
    (absorbInto refId st ms).anc = st.anc := by
  induction ms generalizing st with
  | nil => rfl
  | cons m0 r ih => rw [absorbInto_cons, ih, absorbOne_anc]

theorem absorbInto_ref (refId : Nat) (ms : List Nat) (st : BState) (u : Item)
    (c0 : Coord) (h : lookupItem st.items refId = some u) (hne : refId ∉ ms)
    (hv : u.voxels.head? = some c0) :
    ∃ u2, lookupItem (absorbInto refId st ms).items refId = some u2 ∧
      u2.isLeaf = u.isLeaf ∧ u2.children = u.children ∧
      u2.voxels.head? = some c0 := by
  induction ms generalizing st u with
  | nil => exact ⟨u, h, rfl, rfl, hv⟩
  | cons m0 r ih =>
      have hner : refId ∉ r := fun hx => hne (List.mem_cons_of_mem _ hx)
      rw [absorbInto_cons]
      cases hm : lookupItem st.items m0 with
      | none =>
          have habs : absorbOne refId st m0 = st := by
            simp only [absorbOne, hm]
          rw [habs]
          exact ih st u h hner hv
      | some removed =>
          have habs : absorbOne refId st m0 =
              { st with
                items := setItem (popItem st.items m0) refId (u.mergeIn removed),
                map := stampVoxels st.map removed.voxels refId } := by
            simp only [absorbOne, hm, h]
          rw [habs]
          refine ih _ (u.mergeIn removed) (lookup_setItem_self ..) hner ?_
          show (u.voxels ++ removed.voxels).head? = some c0
          rw [List.head?_append, hv]
          rfl

theorem absorbInto_preserve_none (refId : Nat) (ms : List Nat) (st : BState)
    (m : Nat) (hne : m ≠ refId)
    (h : lookupItem st.items m = none) :
    lookupItem (absorbInto refId st ms).items m = none := by
  induction ms generalizing st with
  | nil => exact h
  | cons m0 r ih =>
      rw [absorbInto_cons]
      apply ih
      unfold absorbOne
      rcases lookupItem st.items m0 with _ | removed
      · exact h
      · rcases lookupItem st.items refId with _ | ref
        · exact h
        · show lookupItem (setItem (popItem st.items m0) refId _) m = none
          rw [lookup_setItem_ne _ _ _ _ hne, lookup_popItem]
          by_cases hm0 : m = m0
          · simp [hm0]
          · simp [hm0, h]

theorem absorbInto_mem_none (refId : Nat) (ms : List Nat) (st : BState) (u : Item)
    (h : lookupItem st.items refId = some u) (hne : refId ∉ ms) :
    ∀ m ∈ ms, lookupItem (absorbInto refId st ms).items m = none := by
  induction ms generalizing st u with
  | nil => intro m hm; cases hm
  | cons m0 r ih =>
      intro m hm
      have hner : refId ∉ r := fun hx => hne (List.mem_cons_of_mem _ hx)
      have hm0ne : m0 ≠ refId := fun hx => hne (hx ▸ List.mem_cons_self _ _)
      rw [absorbInto_cons]
      cases hm0 : lookupItem st.items m0 with
      | none =>
          have habs : absorbOne refId st m0 = st := by
            simp only [absorbOne, hm0]
          rw [habs]
          rcases List.mem_cons.mp hm with rfl | hmr
          · exact absorbInto_preserve_none refId r st m hm0ne hm0
          · exact ih st u h hner m hmr
      | some removed =>
          have habs : absorbOne refId st m0 =
              { st with
                items := setItem (popItem st.items m0) refId (u.mergeIn removed),
                map := stampVoxels st.map removed.voxels refId } := by
            simp only [absorbOne, hm0, h]
          rw [habs]
          rcases List.mem_cons.mp hm with rfl | hmr
          · apply absorbInto_preserve_none refId r _ m hm0ne
            show lookupItem (setItem (popItem st.items m) refId _) m = none
            rw [lookup_setItem_ne _ _ _ _ hm0ne, lookup_popItem]
            simp
          · exact ih _ (u.mergeIn removed) (lookup_setItem_self ..) hner m hmr

theorem absorbInto_map (refId : Nat) (ms : List Nat) (st : BState) (w : Coord) :
    readCube (absorbInto refId st ms).map w = readCube st.map w ∨
    readCube (absorbInto refId st ms).map w = refId := by
  induction ms generalizing st with
  | nil => left; rfl
  | cons m0 r ih =>
      rw [absorbInto_cons]
      rcases ih (absorbOne refId st m0) with hcase | hcase
      · rw [hcase]
        unfold absorbOne
        rcases lookupItem st.items m0 with _ | removed
        · left; rfl
        · rcases lookupItem st.items refId with _ | ref
          · left; rfl
          · show readCube (stampVoxels st.map removed.voxels refId) w = _ ∨ _
            rw [readCube_stampVoxels]
            by_cases hw : w ∈ removed.voxels
            · right; simp [hw]
            · left; simp [hw]
      · right; exact hcase

theorem reparentAll_cons (idx j : Nat) (r : List Nat) (anc : AncMap) :
    reparentAll idx (j :: r) anc =
      reparentAll idx r
        (fun k => if k = j ∨ anc k = some j then some idx else anc k) := rfl

theorem reparentAll_of_none (idx : Nat) (olds : List Nat) (anc : AncMap) (k : Nat)
    (hk : k ∉ olds) (ha : anc k = none) : reparentAll idx olds anc k = none := by
  induction olds generalizing anc with
  | nil => exact ha
  | cons j r ih =>
      rw [reparentAll_cons]
      apply ih _ (fun hx => hk (List.mem_cons_of_mem _ hx))
      have hkj : ¬ k = j := fun hx => hk (hx ▸ List.mem_cons_self _ _)
      simp [hkj, ha]

theorem reparentAll_preserve (idx : Nat) (olds : List Nat) (anc : AncMap) (k : Nat)
    (hidx : idx ∉ olds) (ha : anc k = some idx) :
    reparentAll idx olds anc k = some idx := by
  induction olds generalizing anc with
  | nil => exact ha
  | cons j r ih =>
      rw [reparentAll_cons]
      apply ih _ (fun hx => hidx (List.mem_cons_of_mem _ hx))
      have hij : ¬ idx = j := fun hx => hidx (hx ▸ List.mem_cons_self _ _)
      by_cases hkj : k = j
      · simp [hkj]
      · simp [hkj, ha, hij]

theorem reparentAll_mem (idx : Nat) (olds : List Nat) (anc : AncMap) (j : Nat)
    (hj : j ∈ olds) (hidx : idx ∉ olds) :
    reparentAll idx olds anc j = some idx := by
  induction olds generalizing anc with
  | nil => cases hj
  | cons j0 r ih =>
      rw [reparentAll_cons]
      have hir : idx ∉ r := fun hx => hidx (List.mem_cons_of_mem _ hx)
      rcases List.mem_cons.mp hj with rfl | hjr
      · apply reparentAll_preserve idx r _ j hir
        simp
      · exact ih _ hjr hir

/-- The resolved adjacent list is ascending and duplicate-free. -/
theorem pairwise_adjacentResolved (nz ny nx : Nat) (st : BState) (c : Coord) :
    List.Pairwise (· < ·) (adjacentResolved nz ny nx st c) :=
  pairwise_dedupSorted _

/-! ### C3 — branch creation in the multi-way merge -/

/-- C3: when at least two significant structures touch the current voxel
(`A_sig = s1 :: s2 :: srest`), and `i + 1` is fresh (not among the touching
ids), the step creates a Branch under the fresh id `i + 1` whose children are
exactly the significant ids in ascending order, seeds it with the voxel `c`
(`head?` of its voxel list), stamps `VoxelIndex[c] = i + 1`, sets
`ancestor[i+1] = none`, removes every insignificant id from the table
(merged into the branch), and reparents every significant child onto
`i + 1`. -/
theorem C3_branch_creation (nz ny nx : Nat) (mnp md : Int) (st : BState)
    (i : Nat) (c : Coord) (f : Int) (s1 s2 : Nat) (srest : List Nat)
    (hsig : (adjacentResolved nz ny nx st c).filter
        (fun q => !(isInsig st.items mnp md f q)) = s1 :: s2 :: srest)
    (hfresh : (i + 1) ∉ adjacentResolved nz ny nx st c) :
    ∃ it2, lookupItem (step nz ny nx mnp md st (i, (c, f))).items (i + 1) = some it2 ∧
      it2.isLeaf = false ∧
      it2.children = s1 :: s2 :: srest ∧
      List.Pairwise (· < ·) (s1 :: s2 :: srest) ∧
      it2.voxels.head? = some c ∧
      readCube (step nz ny nx mnp md st (i, (c, f))).map c = i + 1 ∧
      (step nz ny nx mnp md st (i, (c, f))).anc (i + 1) = none ∧
      (∀ j ∈ s1 :: s2 :: srest,
        (step nz ny nx mnp md st (i, (c, f))).anc j = some (i + 1)) ∧
      (∀ m ∈ (adjacentResolved nz ny nx st c).filter
          (fun q => isInsig st.items mnp md f q),
        lookupItem (step nz ny nx mnp md st (i, (c, f))).items m = none) := by
  cases hadj : adjacentResolved nz ny nx st c with
  | nil =>
      rw [hadj] at hsig
      simp at hsig
  | cons a rest1 =>
    cases rest1 with
    | nil =>
        rw [hadj] at hsig
        have hlen := congrArg List.length hsig
        have hle := List.length_filter_le (fun q => !(isInsig st.items mnp md f q)) [a]
        simp at hlen hle
        omega
    | cons b t =>
        rw [hadj] at hsig hfresh
        have hpw : List.Pairwise (· < ·) (a :: b :: t) := by
          rw [← hadj]
          exact pairwise_adjacentResolved nz ny nx st c
        have hpwsig : List.Pairwise (· < ·) (s1 :: s2 :: srest) := by
          rw [← hsig]
          exact List.Pairwise.sublist (List.filter_sublist _) hpw
        have hsigmem : ∀ j ∈ s1 :: s2 :: srest, j ∈ a :: b :: t := by
          intro j hj
          rw [← hsig] at hj
          exact (List.mem_filter.mp hj).1
        have hidxsig : (i + 1) ∉ s1 :: s2 :: srest := fun hx =>
          hfresh (hsigmem _ hx)
        have hidxmrg : (i + 1) ∉
            (a :: b :: t).filter (fun q => isInsig st.items mnp md f q) := fun hx =>
          hfresh (List.mem_filter.mp hx).1
        simp only [step, hadj, hsig]
        set br : Item := newBranch
          ((s1 :: s2 :: srest).filterMap (lookupItem st.items))
          (s1 :: s2 :: srest) c f with hbrdef
        set st1 : BState :=
          { map := writeCube st.map c (i + 1),
            items := setItem st.items (i + 1) br,
            anc := fun k => if k = i + 1 then none else st.anc k } with hst1
        have hbr : lookupItem st1.items (i + 1) = some br := lookup_setItem_self ..
        have hvox : br.voxels.head? = some c := rfl
        obtain ⟨u2, hu2, hleaf, hch, hhead⟩ :=
          absorbInto_ref (i + 1)
            ((a :: b :: t).filter (fun q => isInsig st.items mnp md f q))
            st1 br c hbr hidxmrg hvox
        refine ⟨u2, hu2, ?_, ?_, hpwsig, hhead, ?_, ?_, ?_, ?_⟩
        · rw [hleaf, hbrdef]
          rfl
        · rw [hch, hbrdef]
          rfl
        · rcases absorbInto_map (i + 1)
            ((a :: b :: t).filter (fun q => isInsig st.items mnp md f q)) st1 c with
            hm | hm
          · rw [hm, hst1]
            show readCube (writeCube st.map c (i + 1)) c = i + 1
            rw [readCube_writeCube]
            simp
          · exact hm
        · show reparentAll (i + 1) (s1 :: s2 :: srest) _ (i + 1) = none
          rw [absorbInto_anc]
          apply reparentAll_of_none _ _ _ _ hidxsig
          simp
        · intro j hj
          show reparentAll (i + 1) (s1 :: s2 :: srest) _ j = some (i + 1)
          rw [absorbInto_anc]
          exact reparentAll_mem _ _ _ _ hj hidxsig
        · intro m hm
          exact absorbInto_mem_none (i + 1) _ st1 br hbr hidxmrg m hm

/-- Witness for C3: the reachable state of the `c2flux` run at its merge
voxel `(0,0,2)` of flux 6, where the significant ids are `[1, 4]` and the
fresh id is 3. -/
theorem C3_branch_creation_wit :
    ((adjacentResolved 1 1 4 c3state (0, 0, 2)).filter
        (fun q => !(isInsig c3state.items 0 2 6 q)) = 1 :: 4 :: [] ∧
      (2 + 1) ∉ adjacentResolved 1 1 4 c3state (0, 0, 2)) ∧
    (∃ it2, lookupItem (step 1 1 4 0 2 c3state (2, ((0, 0, 2), 6))).items (2 + 1) = some it2 ∧
      it2.isLeaf = false ∧
      it2.children = 1 :: 4 :: [] ∧
      List.Pairwise (· < ·) (1 :: 4 :: []) ∧
      it2.voxels.head? = some (0, 0, 2) ∧
      readCube (step 1 1 4 0 2 c3state (2, ((0, 0, 2), 6))).map (0, 0, 2) = 2 + 1 ∧
      (step 1 1 4 0 2 c3state (2, ((0, 0, 2), 6))).anc (2 + 1) = none ∧
      (∀ j ∈ 1 :: 4 :: [],
        (step 1 1 4 0 2 c3state (2, ((0, 0, 2), 6))).anc j = some (2 + 1)) ∧
      (∀ m ∈ (adjacentResolved 1 1 4 c3state (0, 0, 2)).filter
          (fun q => isInsig c3state.items 0 2 6 q),
        lookupItem (step 1 1 4 0 2 c3state (2, ((0, 0, 2), 6))).items m = none)) :=
  ⟨⟨by decide, by decide⟩,
   C3_branch_creation 1 1 4 0 2 c3state 2 (0, 0, 2) 6 1 4 [] (by decide) (by decide)⟩

/-! ### Step-0 ordering: the argsort and the processing order -/

theorem mem_insertIdx (key : Nat → Int) (i b : Nat) (l : List Nat) :
    b ∈ insertIdx key i l ↔ b = i ∨ b ∈ l := by
  induction l with
  | nil => simp [insertIdx]
  | cons j r ih =>
      by_cases hj : key j ≤ key i
      · rw [show insertIdx key i (j :: r) = j :: insertIdx key i r by
          simp [insertIdx, hj]]
        simp [ih]
        tauto
      · rw [show insertIdx key i (j :: r) = i :: j :: r by
          simp [insertIdx, hj]]
        simp

theorem nodup_insertIdx (key : Nat → Int) (i : Nat) (l : List Nat)
    (hi : i ∉ l) (h : l.Nodup) : (insertIdx key i l).Nodup := by
  induction l with
  | nil => simp [insertIdx]
  | cons j r ih =>
      have hir : i ∉ r := fun hx => hi (List.mem_cons_of_mem _ hx)
      have hij : i ≠ j := fun hx => hi (hx ▸ List.mem_cons_self _ _)
      rcases List.nodup_cons.mp h with ⟨hjr, hr⟩
      by_cases hj : key j ≤ key i
      · rw [show insertIdx key i (j :: r) = j :: insertIdx key i r by
          simp [insertIdx, hj]]
        refine List.nodup_cons.mpr ⟨?_, ih hir hr⟩
        intro hx
        rcases (mem_insertIdx key i j r).mp hx with hx | hx
        · exact hij hx.symm
        · exact hjr hx
      · rw [show insertIdx key i (j :: r) = i :: j :: r by
          simp [insertIdx, hj]]
        refine List.nodup_cons.mpr ⟨?_, h⟩
        intro hx
        rcases List.mem_cons.mp hx with hx | hx
        · exact hij hx
        · exact hir hx

theorem mem_argsortAsc (key : Nat → Int) (n j : Nat) :
    j ∈ argsortAsc key n ↔ j < n := by
  induction n with
  | zero => simp [argsortAsc]
  | succ n ih =>
      rw [show argsortAsc key (n + 1) = insertIdx key n (argsortAsc key n) from rfl,
        mem_insertIdx, ih]
      omega

theorem nodup_argsortAsc (key : Nat → Int) (n : Nat) :
    (argsortAsc key n).Nodup := by
  induction n with
  | zero => simp [argsortAsc]
  | succ n ih =>
      exact nodup_insertIdx key n _ (fun hx => by
        have := (mem_argsortAsc key n n).mp hx
        omega) ih

theorem pairwise_insertIdx (key : Nat → Int) (i : Nat) (l : List Nat)
    (h : List.Pairwise (fun a b => key a < key b ∨ (key a = key b ∧ a < b)) l)
    (hall : ∀ j ∈ l, j < i) :
    List.Pairwise (fun a b => key a < key b ∨ (key a = key b ∧ a < b))
      (insertIdx key i l) := by
  induction l with
  | nil => simp [insertIdx]
  | cons j r ih =>
      rcases List.pairwise_cons.mp h with ⟨hj, hr⟩
      by_cases hle : key j ≤ key i
      · rw [show insertIdx key i (j :: r) = j :: insertIdx key i r by
          simp [insertIdx, hle]]
        refine List.pairwise_cons.mpr ⟨?_, ih hr (fun b hb => hall b (List.mem_cons_of_mem _ hb))⟩
        intro b hb
        rcases (mem_insertIdx key i b r).mp hb with rfl | hb
        · rcases lt_or_eq_of_le hle with hlt | heq
          · exact Or.inl hlt
          · exact Or.inr ⟨heq, hall j (List.mem_cons_self _ _)⟩
        · exact hj b hb
      · rw [show insertIdx key i (j :: r) = i :: j :: r by
          simp [insertIdx, hle]]
        refine List.pairwise_cons.mpr ⟨?_, h⟩
        intro b hb
        have hij : key i < key j := lt_of_not_le hle
        rcases List.mem_cons.mp hb with rfl | hb
        · exact Or.inl hij
        · rcases hj b hb with hx | hx
          · exact Or.inl (lt_trans hij hx)
          · exact Or.inl (hx.1 ▸ hij)

theorem pairwise_argsortAsc (key : Nat → Int) (n : Nat) :
    List.Pairwise (fun a b => key a < key b ∨ (key a = key b ∧ a < b))
      (argsortAsc key n) := by
  induction n with
  | zero => simp [argsortAsc]
  | succ n ih =>
      exact pairwise_insertIdx key n _ ih
        (fun j hj => (mem_argsortAsc key n j).mp hj)

theorem mem_procIdx (kept : List (Coord × Int)) (j : Nat) :
    j ∈ procIdx kept ↔ j < kept.length := by
  unfold procIdx
  rw [List.mem_reverse]
  exact mem_argsortAsc _ _ j

theorem nodup_procIdx (kept : List (Coord × Int)) : (procIdx kept).Nodup :=
  List.nodup_reverse.mpr (nodup_argsortAsc _ _)

/-- The processing order is descending in flux, ties broken by descending
filtered index. -/
theorem pairwise_procIdx (kept : List (Coord × Int)) :
    List.Pairwise (fun a b =>
        keyOfKept kept b < keyOfKept kept a ∨
          (keyOfKept kept a = keyOfKept kept b ∧ b < a))
      (procIdx kept) := by
  unfold procIdx
  rw [List.pairwise_reverse]
  refine (pairwise_argsortAsc (keyOfKept kept) kept.length).imp ?_
  intro a b hab
  rcases hab with h | ⟨h1, h2⟩
  · exact Or.inl h
  · exact Or.inr ⟨h1.symm, h2⟩

/-! ### C4 — Step 0: selection and processing order -/

/-- C4 (amended): Step 0 keeps exactly the voxels whose flux strictly
exceeds `min_flux`; the scan visits every filtered index exactly once
(membership iff in range, and no duplicates), in descending flux order with
ties between equal fluxes broken by *descending* linear index — the reverse
of cube-row-major order, produced by reversing a stable ascending argsort. -/
theorem C4_step0_order (nz ny nx : Nat) (flux : Nat → Nat → Nat → Int) (mf : Int) :
    (∀ c : Coord, c ∈ (keptEntries nz ny nx flux mf).map Prod.fst ↔
      (c ∈ ravelCoords nz ny nx ∧ mf < flux c.1 c.2.1 c.2.2)) ∧
    (∀ i, i ∈ procIdx (keptEntries nz ny nx flux mf) ↔
      i < (keptEntries nz ny nx flux mf).length) ∧
    (procIdx (keptEntries nz ny nx flux mf)).Nodup ∧
    List.Pairwise (fun a b =>
        keyOfKept (keptEntries nz ny nx flux mf) b <
            keyOfKept (keptEntries nz ny nx flux mf) a ∨
          (keyOfKept (keptEntries nz ny nx flux mf) a =
              keyOfKept (keptEntries nz ny nx flux mf) b ∧ b < a))
      (procIdx (keptEntries nz ny nx flux mf)) := by
  refine ⟨?_, fun i => mem_procIdx _ i, nodup_procIdx _, pairwise_procIdx _⟩
  intro c
  unfold keptEntries
  rw [List.map_map]
  constructor
  · intro h
    rcases List.mem_map.mp h with ⟨c2, hc2, hcc⟩
    rcases List.mem_filter.mp hc2 with ⟨hc2r, hc2p⟩
    have : c2 = c := by simpa using hcc
    subst this
    exact ⟨hc2r, by simpa using hc2p⟩
  · intro ⟨h1, h2⟩
    refine List.mem_map.mpr ⟨c, List.mem_filter.mpr ⟨h1, by simpa using h2⟩, by simp⟩

/-! ### Table-key lemmas and the initial invariant -/

theorem lookupItem_eq_none_iff (l : List (Nat × Item)) (k : Nat) :
    lookupItem l k = none ↔ k ∉ l.map Prod.fst := by
  induction l with
  | nil => simp [lookupItem]
  | cons p r ih =>
      obtain ⟨k1, it1⟩ := p
      simp only [lookupItem, List.map_cons, List.mem_cons]
      by_cases hk : k1 = k
      · simp [hk]
      · rw [if_neg hk, ih]
        constructor
        · intro h hx
          rcases hx with hx | hx
          · exact hk hx.symm
          · exact h hx
        · intro h hx
          exact h (Or.inr hx)

theorem keys_setItem_existing (l : List (Nat × Item)) (k : Nat) (it u : Item)
    (h : lookupItem l k = some u) :
    (setItem l k it).map Prod.fst = l.map Prod.fst := by
  induction l with
  | nil => simp [lookupItem] at h
  | cons p r ih =>
      obtain ⟨k1, it1⟩ := p
      simp only [setItem]
      by_cases hk : k1 = k
      · simp [hk]
      · rw [if_neg hk]
        simp only [List.map_cons]
        rw [ih]
        simpa [lookupItem, hk] using h

theorem setItem_fresh (l : List (Nat × Item)) (k : Nat) (it : Item)
    (h : lookupItem l k = none) : setItem l k it = l ++ [(k, it)] := by
  induction l with
  | nil => simp [setItem]
  | cons p r ih =>
      obtain ⟨k1, it1⟩ := p
      simp only [setItem]
      by_cases hk : k1 = k
      · rw [hk] at h
        simp [lookupItem] at h
      · rw [if_neg hk, List.cons_append]
        congr 1
        apply ih
        simpa [lookupItem, hk] using h

theorem keys_popItem_sublist (l : List (Nat × Item)) (k : Nat) :
    ((popItem l k).map Prod.fst).Sublist (l.map Prod.fst) := by
  induction l with
  | nil => simp [popItem]
  | cons p r ih =>
      obtain ⟨k1, it1⟩ := p
      simp only [popItem]
      by_cases hk : k1 = k
      · rw [if_pos hk]
        exact ih.trans (List.sublist_cons_self _ _)
      · rw [if_neg hk]
        simp only [List.map_cons]
        exact List.Sublist.cons₂ k1 ih

theorem scanInv_init (nz ny nx : Nat) : ScanInv nz ny nx [] [] initState := by
  refine ⟨?_, ?_, ?_, ?_, ?_, ?_, ?_, ?_, ?_⟩
  · simp [initState]
  · intro k h
    simp [initState, lookupItem] at h
  · intro a b d h
    rfl
  · intro k it h
    simp [initState, lookupItem] at h
  · intro v h1 h2 h3 hv
    rfl
  · intro a b d h1 h2 h3
    left
    rfl
  · intro k p h
    simp [initState] at h
  · intro k p h
    simp [initState] at h
  · intro k h
    simp [initState] at h

theorem ScanInv.mono {nz ny nx : Nat} {D : List Nat} {C : List Coord} {st : BState}
    (inv : ScanInv nz ny nx D C st) {D2 : List Nat} {C2 : List Coord}
    (hD : ∀ j ∈ D, j ∈ D2) (hC : ∀ c ∈ C, c ∈ C2) :
    ScanInv nz ny nx D2 C2 st := by
  refine ⟨inv.keysNodup, ?_, inv.sentinel, inv.footprint, ?_, ?_, inv.flat, ?_, ?_⟩
  · intro k h
    rcases inv.keysFrom k h with ⟨j, hj, hk⟩
    exact ⟨j, hD j hj, hk⟩
  · intro v h1 h2 h3 hv
    exact inv.unassigned v h1 h2 h3 (fun hx => hv (hC v hx))
  · intro a b d h1 h2 h3
    rcases inv.mapVals a b d h1 h2 h3 with h | ⟨j, hj, he⟩
    · exact Or.inl h
    · exact Or.inr ⟨j, hD j hj, he⟩
  · intro k p h
    rcases inv.ancTargets k p h with ⟨j, hj, he⟩
    exact ⟨j, hD j hj, he⟩
  · intro k h
    rcases inv.ancKeys k h with ⟨j, hj, he⟩
    exact ⟨j, hD j hj, he⟩

/-! ### Neighbour reads under the invariant -/

theorem pyWrap_le (n : Nat) (i : Int) (h1 : -1 ≤ i) (h2 : i ≤ (n : Int)) :
    pyWrap n i ≤ n := by
  unfold pyWrap
  split <;> omega

theorem neighbor_wrap_le (nz ny nx : Nat) (c : Coord)
    (h1 : c.1 < nz) (h2 : c.2.1 < ny) (h3 : c.2.2 < nx)
    (nb : Int × Int × Int) (hnb : nb ∈ neighborCoords c) :
    pyWrap nz nb.1 ≤ nz ∧ pyWrap ny nb.2.1 ≤ ny ∧ pyWrap nx nb.2.2 ≤ nx := by
  simp only [neighborCoords, List.mem_cons, List.not_mem_nil, or_false] at hnb
  rcases hnb with rfl | rfl | rfl | rfl | rfl | rfl <;>
    (dsimp only
     exact ⟨pyWrap_le _ _ (by omega) (by omega), pyWrap_le _ _ (by omega) (by omega),
       pyWrap_le _ _ (by omega) (by omega)⟩)

theorem adjacentResolved_done (nz ny nx : Nat) (D : List Nat) (C : List Coord)
    (st : BState) (inv : ScanInv nz ny nx D C st) (c : Coord)
    (h1 : c.1 < nz) (h2 : c.2.1 < ny) (h3 : c.2.2 < nx) :
    ∀ a ∈ adjacentResolved nz ny nx st c, ∃ j ∈ D, a = j + 1 := by
  intro a ha
  unfold adjacentResolved at ha
  rw [mem_dedupSorted] at ha
  rcases List.mem_map.mp ha with ⟨a0, ha0, rfl⟩
  rcases List.mem_filter.mp ha0 with ⟨ha0m, ha0ne⟩
  rcases List.mem_map.mp ha0m with ⟨nb, hnb, rfl⟩
  have hwrap := neighbor_wrap_le nz ny nx c h1 h2 h3 nb hnb
  have hval := inv.mapVals (pyWrap nz nb.1) (pyWrap ny nb.2.1) (pyWrap nx nb.2.2)
    hwrap.1 hwrap.2.1 hwrap.2.2
  have hne0 : readPadded nz ny nx st.map nb ≠ 0 := by simpa using ha0ne
  rcases hval with h0 | ⟨j, hj, he⟩
  · exact absurd h0 hne0
  · unfold singleStepAnc
    cases hanc : st.anc (readPadded nz ny nx st.map nb) with
    | none => exact ⟨j, hj, he⟩
    | some p => exact inv.ancTargets _ p hanc

/-! ### Invariant preservation through the merge absorptions -/

theorem scanInv_absorbOne (nz ny nx : Nat) (D : List Nat) (C : List Coord)
    (st : BState) (inv : ScanInv nz ny nx D C st) (refId m : Nat)
    (href : ∃ j ∈ D, refId = j + 1) (hne : m ≠ refId) :
    ScanInv nz ny nx D C (absorbOne refId st m) := by
  unfold absorbOne
  cases hm : lookupItem st.items m with
  | none => exact inv
  | some removed =>
    cases hr : lookupItem st.items refId with
    | none => exact inv
    | some ref =>
      have hremfp := inv.footprint m removed hm
      have hreffp := inv.footprint refId ref hr
      have hrne : ¬ refId = m := fun hx => hne hx.symm
      refine ⟨?_, ?_, ?_, ?_, ?_, ?_, inv.flat, inv.ancTargets, inv.ancKeys⟩
      · show ((setItem (popItem st.items m) refId (ref.mergeIn removed)).map Prod.fst).Nodup
        have hrp : lookupItem (popItem st.items m) refId = some ref := by
          rw [lookup_popItem, if_neg hrne]
          exact hr
        rw [keys_setItem_existing _ _ _ _ hrp]
        exact List.Nodup.sublist (keys_popItem_sublist _ _) inv.keysNodup
      · intro k hk
        by_cases hkr : k = refId
        · subst hkr
          exact inv.keysFrom k (by rw [hr]; rfl)
        · rw [show lookupItem (setItem (popItem st.items m) refId (ref.mergeIn removed)) k
              = lookupItem (popItem st.items m) k from lookup_setItem_ne _ _ _ _ hkr,
            lookup_popItem] at hk
          by_cases hkm : k = m
          · rw [if_pos hkm] at hk
            simp at hk
          · rw [if_neg hkm] at hk
            exact inv.keysFrom k hk
      · intro a b d hsent
        show stampVoxels st.map removed.voxels refId a b d = 0
        rw [show stampVoxels st.map removed.voxels refId a b d
            = readCube (stampVoxels st.map removed.voxels refId) (a, b, d) from rfl,
          readCube_stampVoxels]
        have hnotin : ((a, b, d) : Coord) ∉ removed.voxels := by
          intro hx
          rcases hremfp _ hx with ⟨hz, hy, hd, _⟩
          dsimp only at hz hy hd
          rcases hsent with h | h | h <;> omega
        rw [if_neg hnotin]
        exact inv.sentinel a b d hsent
      · intro k it2 hk v hv
        by_cases hkr : k = refId
        · subst hkr
          rw [lookup_setItem_self] at hk
          injection hk with hk
          subst hk
          rcases List.mem_append.mp hv with hv2 | hv2
          · rcases hreffp v hv2 with ⟨hz, hy, hd, hval⟩
            refine ⟨hz, hy, hd, ?_⟩
            rw [readCube_stampVoxels]
            by_cases hvm : v ∈ removed.voxels
            · rw [if_pos hvm]
            · rw [if_neg hvm]
              exact hval
          · rcases hremfp v hv2 with ⟨hz, hy, hd, hval⟩
            refine ⟨hz, hy, hd, ?_⟩
            rw [readCube_stampVoxels, if_pos hv2]
        · rw [lookup_setItem_ne _ _ _ _ hkr, lookup_popItem] at hk
          by_cases hkm : k = m
          · rw [if_pos hkm] at hk
            exact absurd hk (by simp)
          · rw [if_neg hkm] at hk
            rcases inv.footprint k it2 hk v hv with ⟨hz, hy, hd, hval⟩
            refine ⟨hz, hy, hd, ?_⟩
            rw [readCube_stampVoxels]
            have hvm : v ∉ removed.voxels := by
              intro hx2
              rcases hremfp v hx2 with ⟨_, _, _, hval2⟩
              exact hkm (hval.symm.trans hval2)
            rw [if_neg hvm]
            exact hval
      · intro v h1 h2 h3 hv
        show readCube (stampVoxels st.map removed.voxels refId) v = 0
        rw [readCube_stampVoxels]
        have hvm : v ∉ removed.voxels := by
          intro hx
          rcases hremfp v hx with ⟨_, _, _, hval⟩
          have h0 := inv.unassigned v h1 h2 h3 hv
          have hm0 : m = 0 := hval.symm.trans h0
          rcases inv.keysFrom m (by rw [hm]; rfl) with ⟨j, hj, hmj⟩
          omega
        rw [if_neg hvm]
        exact inv.unassigned v h1 h2 h3 hv
      · intro a b d h1 h2 h3
        show stampVoxels st.map removed.voxels refId a b d = 0 ∨
          ∃ j ∈ D, stampVoxels st.map removed.voxels refId a b d = j + 1
        have he : stampVoxels st.map removed.voxels refId a b d
            = if ((a, b, d) : Coord) ∈ removed.voxels then refId
              else readCube st.map (a, b, d) := by
          rw [show stampVoxels st.map removed.voxels refId a b d
              = readCube (stampVoxels st.map removed.voxels refId) (a, b, d) from rfl,
            readCube_stampVoxels]
        rw [he]
        by_cases hvm : ((a, b, d) : Coord) ∈ removed.voxels
        · rw [if_pos hvm]
          exact Or.inr href
        · rw [if_neg hvm]
          exact inv.mapVals a b d h1 h2 h3

theorem scanInv_absorbInto (nz ny nx : Nat) (D : List Nat) (C : List Coord)
    (ms : List Nat) (st : BState) (inv : ScanInv nz ny nx D C st) (refId : Nat)
    (href : ∃ j ∈ D, refId = j + 1) (hne : ∀ m ∈ ms, m ≠ refId) :
    ScanInv nz ny nx D C (absorbInto refId st ms) := by
  induction ms generalizing st with
  | nil => exact inv
  | cons m0 r ih =>
      rw [absorbInto_cons]
      exact ih _ (scanInv_absorbOne nz ny nx D C st inv refId m0 href
        (hne m0 (List.mem_cons_self _ _))) (fun m hm => hne m (List.mem_cons_of_mem _ hm))

/-! ### Invariant preservation: extending a structure, creating one, reparenting -/

theorem scanInv_addPoint (nz ny nx : Nat) (D : List Nat) (C : List Coord)
    (st : BState) (inv : ScanInv nz ny nx D C st) (a : Nat) (it : Item)
    (ha : lookupItem st.items a = some it) (c : Coord) (f : Int)
    (h1 : c.1 < nz) (h2 : c.2.1 < ny) (h3 : c.2.2 < nx) (hcC : c ∉ C) :
    ScanInv nz ny nx D (C ++ [c])
      { st with items := setItem st.items a (it.addPoint c f),
                map := writeCube st.map c a } := by
  have haD : ∃ j ∈ D, a = j + 1 := inv.keysFrom a (by rw [ha]; rfl)
  refine ⟨?_, ?_, ?_, ?_, ?_, ?_, inv.flat, inv.ancTargets, inv.ancKeys⟩
  · show ((setItem st.items a (it.addPoint c f)).map Prod.fst).Nodup
    rw [keys_setItem_existing _ _ _ _ ha]
    exact inv.keysNodup
  · intro k hk
    by_cases hka : k = a
    · subst hka
      exact inv.keysFrom k (by rw [ha]; rfl)
    · rw [lookup_setItem_ne _ _ _ _ hka] at hk
      exact inv.keysFrom k hk
  · intro aa b d hsent
    show writeCube st.map c a aa b d = 0
    rw [show writeCube st.map c a aa b d
        = readCube (writeCube st.map c a) (aa, b, d) from rfl, readCube_writeCube]
    by_cases hvc : ((aa, b, d) : Coord) = c
    · exfalso
      rw [← hvc] at h1 h2 h3
      dsimp only at h1 h2 h3
      rcases hsent with h | h | h <;> omega
    · rw [if_neg hvc]
      exact inv.sentinel aa b d hsent
  · intro k it2 hk v hv
    by_cases hka : k = a
    · subst hka
      rw [lookup_setItem_self] at hk
      injection hk with hk
      subst hk
      rcases List.mem_append.mp hv with hv2 | hv2
      · rcases inv.footprint k it ha v hv2 with ⟨hz, hy, hd, hval⟩
        refine ⟨hz, hy, hd, ?_⟩
        rw [readCube_writeCube]
        by_cases hvc : v = c
        · rw [if_pos hvc]
        · rw [if_neg hvc]
          exact hval
      · have hvc : v = c := by simpa using hv2
        subst hvc
        exact ⟨h1, h2, h3, by rw [readCube_writeCube, if_pos rfl]⟩
    · rw [lookup_setItem_ne _ _ _ _ hka] at hk
      rcases inv.footprint k it2 hk v hv with ⟨hz, hy, hd, hval⟩
      refine ⟨hz, hy, hd, ?_⟩
      rw [readCube_writeCube]
      have hvc : v ≠ c := by
        intro hx
        subst hx
        have h0 := inv.unassigned v hz hy hd hcC
        have hk0 : k = 0 := hval.symm.trans h0
        rcases inv.keysFrom k (by rw [hk]; rfl) with ⟨j, hj, hkj⟩
        omega
      rw [if_neg hvc]
      exact hval
  · intro v hz hy hd hv
    have hvC : v ∉ C := fun hx => hv (List.mem_append.mpr (Or.inl hx))
    have hvc : v ≠ c := fun hx => hv (List.mem_append.mpr (Or.inr (by simp [hx])))
    show readCube (writeCube st.map c a) v = 0
    rw [readCube_writeCube, if_neg hvc]
    exact inv.unassigned v hz hy hd hvC
  · intro aa b d hh1 hh2 hh3
    show writeCube st.map c a aa b d = 0 ∨
      ∃ j ∈ D, writeCube st.map c a aa b d = j + 1
    have he : writeCube st.map c a aa b d
        = if ((aa, b, d) : Coord) = c then a else readCube st.map (aa, b, d) := by
      rw [show writeCube st.map c a aa b d
          = readCube (writeCube st.map c a) (aa, b, d) from rfl, readCube_writeCube]
    rw [he]
    by_cases hvc : ((aa, b, d) : Coord) = c
    · rw [if_pos hvc]
      exact Or.inr haD
    · rw [if_neg hvc]
      exact inv.mapVals aa b d hh1 hh2 hh3

theorem scanInv_create (nz ny nx : Nat) (D : List Nat) (C : List Coord)
    (st : BState) (inv : ScanInv nz ny nx D C st) (i : Nat) (newIt : Item)
    (c : Coord) (hvox : newIt.voxels = [c]) (hiD : i ∉ D) (hcC : c ∉ C)
    (h1 : c.1 < nz) (h2 : c.2.1 < ny) (h3 : c.2.2 < nx) :
    ScanInv nz ny nx (D ++ [i]) (C ++ [c])
      { map := writeCube st.map c (i + 1),
        items := setItem st.items (i + 1) newIt,
        anc := fun k => if k = i + 1 then none else st.anc k } := by
  have hfresh : lookupItem st.items (i + 1) = none := by
    cases hl : lookupItem st.items (i + 1) with
    | none => rfl
    | some u =>
        rcases inv.keysFrom (i + 1) (by rw [hl]; rfl) with ⟨j, hj, hij⟩
        have hji : j = i := by omega
        subst hji
        exact absurd hj hiD
  have hset : setItem st.items (i + 1) newIt = st.items ++ [(i + 1, newIt)] :=
    setItem_fresh _ _ _ hfresh
  have hmemk : (i + 1) ∉ st.items.map Prod.fst := (lookupItem_eq_none_iff _ _).mp hfresh
  refine ⟨?_, ?_, ?_, ?_, ?_, ?_, ?_, ?_, ?_⟩
  · show ((setItem st.items (i + 1) newIt).map Prod.fst).Nodup
    rw [hset, List.map_append, List.nodup_append]
    refine ⟨inv.keysNodup, by simp, ?_⟩
    intro a ha hb
    simp at hb
    subst hb
    exact hmemk ha
  · intro k hk
    by_cases hki : k = i + 1
    · exact ⟨i, by simp, hki⟩
    · rw [lookup_setItem_ne _ _ _ _ hki] at hk
      rcases inv.keysFrom k hk with ⟨j, hj, he⟩
      exact ⟨j, by simp [hj], he⟩
  · intro aa b d hsent
    show writeCube st.map c (i + 1) aa b d = 0
    rw [show writeCube st.map c (i + 1) aa b d
        = readCube (writeCube st.map c (i + 1)) (aa, b, d) from rfl, readCube_writeCube]
    by_cases hvc : ((aa, b, d) : Coord) = c
    · exfalso
      rw [← hvc] at h1 h2 h3
      dsimp only at h1 h2 h3
      rcases hsent with h | h | h <;> omega
    · rw [if_neg hvc]
      exact inv.sentinel aa b d hsent
  · intro k it2 hk v hv
    by_cases hki : k = i + 1
    · subst hki
      rw [lookup_setItem_self] at hk
      injection hk with hk
      subst hk
      rw [hvox] at hv
      have hvc : v = c := by simpa using hv
      subst hvc
      exact ⟨h1, h2, h3, by rw [readCube_writeCube, if_pos rfl]⟩
    · rw [lookup_setItem_ne _ _ _ _ hki] at hk
      rcases inv.footprint k it2 hk v hv with ⟨hz, hy, hd, hval⟩
      refine ⟨hz, hy, hd, ?_⟩
      rw [readCube_writeCube]
      have hvc : v ≠ c := by
        intro hx
        subst hx
        have h0 := inv.unassigned v hz hy hd hcC
        have hk0 : k = 0 := hval.symm.trans h0
        rcases inv.keysFrom k (by rw [hk]; rfl) with ⟨j, hj, hkj⟩
        omega
      rw [if_neg hvc]
      exact hval
  · intro v hz hy hd hv
    have hvC : v ∉ C := fun hx => hv (List.mem_append.mpr (Or.inl hx))
    have hvc : v ≠ c := fun hx => hv (List.mem_append.mpr (Or.inr (by simp [hx])))
    show readCube (writeCube st.map c (i + 1)) v = 0
    rw [readCube_writeCube, if_neg hvc]
    exact inv.unassigned v hz hy hd hvC
  · intro aa b d hh1 hh2 hh3
    show writeCube st.map c (i + 1) aa b d = 0 ∨
      ∃ j ∈ D ++ [i], writeCube st.map c (i + 1) aa b d = j + 1
    have he : writeCube st.map c (i + 1) aa b d
        = if ((aa, b, d) : Coord) = c then i + 1 else readCube st.map (aa, b, d) := by
      rw [show writeCube st.map c (i + 1) aa b d
          = readCube (writeCube st.map c (i + 1)) (aa, b, d) from rfl, readCube_writeCube]
    rw [he]
    by_cases hvc : ((aa, b, d) : Coord) = c
    · rw [if_pos hvc]
      exact Or.inr ⟨i, by simp, rfl⟩
    · rw [if_neg hvc]
      rcases inv.mapVals aa b d hh1 hh2 hh3 with h | ⟨j, hj, he2⟩
      · exact Or.inl h
      · exact Or.inr ⟨j, by simp [hj], he2⟩
  · intro k p hkp
    dsimp only at hkp ⊢
    by_cases hki : k = i + 1
    · rw [if_pos hki] at hkp
      exact absurd hkp (by simp)
    · rw [if_neg hki] at hkp
      by_cases hpi : p = i + 1
      · rw [if_pos hpi]
      · rw [if_neg hpi]
        exact inv.flat k p hkp
  · intro k p hkp
    dsimp only at hkp
    by_cases hki : k = i + 1
    · rw [if_pos hki] at hkp
      exact absurd hkp (by simp)
    · rw [if_neg hki] at hkp
      rcases inv.ancTargets k p hkp with ⟨j, hj, he⟩
      exact ⟨j, by simp [hj], he⟩
  · intro k hk
    dsimp only at hk
    by_cases hki : k = i + 1
    · rw [if_pos hki] at hk
      exact absurd rfl hk
    · rw [if_neg hki] at hk
      rcases inv.ancKeys k hk with ⟨j, hj, he⟩
      exact ⟨j, by simp [hj], he⟩

/-! ### Invariant preservation: eager ancestor rewriting -/

theorem reparentAll_flat (idx : Nat) (olds : List Nat) :
    ∀ (anc : AncMap), (∀ k p, anc k = some p → anc p = none) →
      anc idx = none → idx ∉ olds →
      (∀ k p, reparentAll idx olds anc k = some p →
        reparentAll idx olds anc p = none) ∧ reparentAll idx olds anc idx = none := by
  induction olds with
  | nil =>
      intro anc hflat hidx _
      exact ⟨hflat, hidx⟩
  | cons j r ih =>
      intro anc hflat hidx hio
      have hij : idx ≠ j := fun hx => hio (hx ▸ List.mem_cons_self _ _)
      have hior : idx ∉ r := fun hx => hio (List.mem_cons_of_mem _ hx)
      rw [reparentAll_cons]
      have hnotidx : ¬ (idx = j ∨ anc idx = some j) := by
        rintro (hx | hx)
        · exact hij hx
        · rw [hidx] at hx
          exact Option.noConfusion hx
      refine ih _ ?_ ?_ hior
      · intro k p hkp
        dsimp only at hkp ⊢
        by_cases hcond : k = j ∨ anc k = some j
        · rw [if_pos hcond] at hkp
          injection hkp with hkp
          subst hkp
          rw [if_neg hnotidx]
          exact hidx
        · rw [if_neg hcond] at hkp
          have hpn := hflat k p hkp
          have h2 : ¬ (p = j ∨ anc p = some j) := by
            rintro (hx | hx)
            · subst hx
              exact hcond (Or.inr hkp)
            · rw [hpn] at hx
              exact Option.noConfusion hx
          rw [if_neg h2]
          exact hpn
      · dsimp only
        rw [if_neg hnotidx]
        exact hidx

theorem reparentAll_targets (idx : Nat) (olds : List Nat) (P : Nat → Prop) :
    ∀ (anc : AncMap), (∀ k p, anc k = some p → P p) → P idx →
      ∀ k p, reparentAll idx olds anc k = some p → P p := by
  induction olds with
  | nil =>
      intro anc h _ k p
      exact h k p
  | cons j r ih =>
      intro anc h hP k p hkp
      rw [reparentAll_cons] at hkp
      refine ih _ ?_ hP k p hkp
      intro k2 p2 hk2
      by_cases hcond : k2 = j ∨ anc k2 = some j
      · rw [if_pos hcond] at hk2
        injection hk2 with hk2
        exact hk2 ▸ hP
      · rw [if_neg hcond] at hk2
        exact h k2 p2 hk2

theorem reparentAll_keys (idx : Nat) (olds : List Nat) (Q : Nat → Prop) :
    ∀ (anc : AncMap), (∀ k, anc k ≠ none → Q k) → (∀ j ∈ olds, Q j) →
      ∀ k, reparentAll idx olds anc k ≠ none → Q k := by
  induction olds with
  | nil =>
      intro anc h _ k
      exact h k
  | cons j r ih =>
      intro anc h holds k hk
      rw [reparentAll_cons] at hk
      refine ih _ ?_ (fun j2 hj2 => holds j2 (List.mem_cons_of_mem _ hj2)) k hk
      intro k2 hk2
      by_cases hcond : k2 = j ∨ anc k2 = some j
      · rcases hcond with rfl | hx
        · exact holds k2 (List.mem_cons_self _ _)
        · exact h k2 (by rw [hx]; simp)
      · rw [if_neg hcond] at hk2
        exact h k2 hk2

theorem scanInv_reparent (nz ny nx : Nat) (D : List Nat) (C : List Coord)
    (st : BState) (inv : ScanInv nz ny nx D C st) (idx : Nat) (olds : List Nat)
    (hanc : st.anc idx = none) (hio : idx ∉ olds)
    (hiD : ∃ j ∈ D, idx = j + 1)
    (holds : ∀ j ∈ olds, ∃ d2 ∈ D, j = d2 + 1) :
    ScanInv nz ny nx D C { st with anc := reparentAll idx olds st.anc } := by
  refine ⟨inv.keysNodup, inv.keysFrom, inv.sentinel, inv.footprint, inv.unassigned,
    inv.mapVals, ?_, ?_, ?_⟩
  · exact (reparentAll_flat idx olds st.anc inv.flat hanc hio).1
  · intro k p hkp
    exact reparentAll_targets idx olds (fun p2 => ∃ j ∈ D, p2 = j + 1) st.anc
      inv.ancTargets hiD k p hkp
  · intro k hk
    exact reparentAll_keys idx olds (fun k2 => ∃ j ∈ D, k2 = j + 1) st.anc
      inv.ancKeys holds k hk

/-! ### Invariant preservation through one scan step -/

theorem scanInv_step (nz ny nx : Nat) (mnp md : Int) (D : List Nat) (C : List Coord)
    (st : BState) (inv : ScanInv nz ny nx D C st)
    (i : Nat) (c : Coord) (f : Int)
    (hiD : i ∉ D) (hcC : c ∉ C)
    (h1 : c.1 < nz) (h2 : c.2.1 < ny) (h3 : c.2.2 < nx) :
    ScanInv nz ny nx (D ++ [i]) (C ++ [c]) (step nz ny nx mnp md st (i, (c, f))) := by
  have hadjD := adjacentResolved_done nz ny nx D C st inv c h1 h2 h3
  have hadjnd : (adjacentResolved nz ny nx st c).Nodup := by
    unfold adjacentResolved
    exact nodup_dedupSorted _
  have hDsub : ∀ j ∈ D, j ∈ D ++ [i] := fun j hj => List.mem_append.mpr (Or.inl hj)
  have hCsub : ∀ v ∈ C, v ∈ C ++ [c] := fun v hv => List.mem_append.mpr (Or.inl hv)
  cases hadj : adjacentResolved nz ny nx st c with
  | nil =>
      simp only [step, hadj]
      exact scanInv_create nz ny nx D C st inv i (newLeaf c f) c rfl hiD hcC h1 h2 h3
  | cons a rest =>
    rw [hadj] at hadjD hadjnd
    cases rest with
    | nil =>
        simp only [step, hadj]
        cases hla : lookupItem st.items a with
        | none => exact inv.mono hDsub hCsub
        | some it =>
            exact (scanInv_addPoint nz ny nx D C st inv a it hla c f h1 h2 h3 hcC).mono
              hDsub (fun v hv => hv)
    | cons b t =>
        simp only [step, hadj]
        cases hsig : (a :: b :: t).filter (fun q => !(isInsig st.items mnp md f q)) with
        | nil =>
            simp only [hsig]
            cases hmrg : (a :: b :: t).filter (fun q => isInsig st.items mnp md f q) with
            | nil =>
                simp only [hmrg]
                exact inv.mono hDsub hCsub
            | cons r rest2 =>
                simp only [hmrg]
                cases hlr : lookupItem st.items r with
                | none => exact inv.mono hDsub hCsub
                | some it =>
                    have hrmem : r ∈ a :: b :: t := by
                      have : r ∈ (a :: b :: t).filter
                          (fun q => isInsig st.items mnp md f q) := by
                        rw [hmrg]
                        exact List.mem_cons_self _ _
                      exact (List.mem_filter.mp this).1
                    have hrD : ∃ j ∈ D, r = j + 1 := hadjD r hrmem
                    have hmrgnd : (r :: rest2).Nodup := by
                      rw [← hmrg]
                      exact List.Nodup.filter _ hadjnd
                    have hne : ∀ m ∈ rest2, m ≠ r := by
                      intro m hm he
                      exact (List.nodup_cons.mp hmrgnd).1 (he ▸ hm)
                    have hst1 := scanInv_addPoint nz ny nx D C st inv r it hlr c f
                      h1 h2 h3 hcC
                    exact (scanInv_absorbInto nz ny nx D (C ++ [c]) rest2 _ hst1 r
                      hrD hne).mono hDsub (fun v hv => hv)
        | cons s srest =>
          cases srest with
          | nil =>
              simp only [hsig]
              cases hls : lookupItem st.items s with
              | none => exact inv.mono hDsub hCsub
              | some it =>
                  have hsmem : s ∈ a :: b :: t := by
                    have : s ∈ (a :: b :: t).filter
                        (fun q => !(isInsig st.items mnp md f q)) := by
                      rw [hsig]
                      exact List.mem_cons_self _ _
                    exact (List.mem_filter.mp this).1
                  have hssig : isInsig st.items mnp md f s = false := by
                    have hmem : s ∈ (a :: b :: t).filter
                        (fun q => !(isInsig st.items mnp md f q)) := by
                      rw [hsig]
                      exact List.mem_cons_self _ _
                    have h2 := (List.mem_filter.mp hmem).2
                    simpa using h2
                  have hsD : ∃ j ∈ D, s = j + 1 := hadjD s hsmem
                  have hne : ∀ m ∈ (a :: b :: t).filter
                      (fun q => isInsig st.items mnp md f q), m ≠ s := by
                    intro m hm he
                    subst he
                    have hmp := (List.mem_filter.mp hm).2
                    rw [hmp] at hssig
                    exact Bool.noConfusion hssig
                  have hst1 := scanInv_addPoint nz ny nx D C st inv s it hls c f
                    h1 h2 h3 hcC
                  exact (scanInv_absorbInto nz ny nx D (C ++ [c]) _ _ hst1 s
                    hsD hne).mono hDsub (fun v hv => hv)
          | cons s2 srest2 =>
              simp only [hsig]
              have hsigsub : ∀ j ∈ s :: s2 :: srest2, j ∈ a :: b :: t := by
                intro j hj
                rw [← hsig] at hj
                exact (List.mem_filter.mp hj).1
              have hinv1 := scanInv_create nz ny nx D C st inv i
                (newBranch ((s :: s2 :: srest2).filterMap (lookupItem st.items))
                  (s :: s2 :: srest2) c f) c rfl hiD hcC h1 h2 h3
              have hne : ∀ m ∈ (a :: b :: t).filter
                  (fun q => isInsig st.items mnp md f q), m ≠ i + 1 := by
                intro m hm he
                rcases hadjD m (List.mem_filter.mp hm).1 with ⟨j, hj, hmj⟩
                have : j = i := by omega
                subst this
                exact hiD hj
              have hinv2 := scanInv_absorbInto nz ny nx (D ++ [i]) (C ++ [c]) _ _
                hinv1 (i + 1) ⟨i, by simp, rfl⟩ hne
              refine scanInv_reparent nz ny nx (D ++ [i]) (C ++ [c]) _ hinv2 (i + 1)
                (s :: s2 :: srest2) ?_ ?_ ⟨i, by simp, rfl⟩ ?_
              · rw [absorbInto_anc]
                simp
              · intro hx
                rcases hadjD (i + 1) (hsigsub _ hx) with ⟨j, hj, hij⟩
                have : j = i := by omega
                subst this
                exact hiD hj
              · intro j hj
                rcases hadjD j (hsigsub _ hj) with ⟨d2, hd2, hjd⟩
                exact ⟨d2, hDsub d2 hd2, hjd⟩

/-! ### Properties of the processed pair list -/

theorem map_fst_filterMap_sublist {α : Type} (f : Nat → Option (Nat × α))
    (hf : ∀ i p, f i = some p → p.1 = i) (l : List Nat) :
    ((l.filterMap f).map Prod.fst).Sublist l := by
  induction l with
  | nil => simp
  | cons i r ih =>
      rw [List.filterMap_cons]
      cases hfi : f i with
      | none => exact ih.trans (List.sublist_cons_self _ _)
      | some p =>
          simp only [List.map_cons]
          rw [hf i p hfi]
          exact List.Sublist.cons₂ i ih

theorem procPairs_fst_sublist (kept : List (Coord × Int)) :
    ((procPairs kept).map Prod.fst).Sublist (procIdx kept) := by
  apply map_fst_filterMap_sublist
  intro i p hp
  rcases Option.map_eq_some'.mp hp with ⟨e, _, he⟩
  rw [← he]

theorem procPairs_fst_nodup (kept : List (Coord × Int)) :
    ((procPairs kept).map Prod.fst).Nodup :=
  List.Nodup.sublist (procPairs_fst_sublist kept) (nodup_procIdx kept)

theorem procPairs_sound (kept : List (Coord × Int)) :
    ∀ p ∈ procPairs kept, kept.get? p.1 = some p.2 := by
  intro p hp
  rcases List.mem_filterMap.mp hp with ⟨i, _, hfi⟩
  rcases Option.map_eq_some'.mp hfi with ⟨e, he, hpe⟩
  rw [← hpe]
  exact he

theorem mem_ravelCoords (nz ny nx : Nat) (c : Coord) :
    c ∈ ravelCoords nz ny nx ↔ c.1 < nz ∧ c.2.1 < ny ∧ c.2.2 < nx := by
  obtain ⟨z, y, x⟩ := c
  unfold ravelCoords
  simp only [List.mem_flatMap, List.mem_map, List.mem_range, Prod.mk.injEq]
  constructor
  · rintro ⟨z2, hz2, y2, hy2, x2, hx2, rfl, rfl, rfl⟩
    exact ⟨hz2, hy2, hx2⟩
  · rintro ⟨hz, hy, hx⟩
    exact ⟨z, hz, y, hy, x, hx, rfl, rfl, rfl⟩

theorem nodup_ravelCoords (nz ny nx : Nat) : (ravelCoords nz ny nx).Nodup := by
  unfold ravelCoords
  rw [List.nodup_flatMap]
  constructor
  · intro z _
    rw [List.nodup_flatMap]
    constructor
    · intro y _
      exact List.Nodup.map (fun x1 x2 he => by simpa using he) (List.nodup_range _)
    · refine (List.pairwise_lt_range _).imp ?_
      intro y1 y2 hlt
      intro v hv1 hv2
      rcases List.mem_map.mp hv1 with ⟨x1, _, he1⟩
      rcases List.mem_map.mp hv2 with ⟨x2, _, he2⟩
      rw [← he1] at he2
      simp only [Prod.mk.injEq] at he2
      omega
  · refine (List.pairwise_lt_range _).imp ?_
    intro z1 z2 hlt
    intro v hv1 hv2
    rcases List.mem_flatMap.mp hv1 with ⟨y1, _, hm1⟩
    rcases List.mem_flatMap.mp hv2 with ⟨y2, _, hm2⟩
    rcases List.mem_map.mp hm1 with ⟨x1, _, he1⟩
    rcases List.mem_map.mp hm2 with ⟨x2, _, he2⟩
    rw [← he1] at he2
    simp only [Prod.mk.injEq] at he2
    omega

theorem keptCoords_eq (nz ny nx : Nat) (flux : Nat → Nat → Nat → Int) (mf : Int) :
    (keptEntries nz ny nx flux mf).map Prod.fst =
      (ravelCoords nz ny nx).filter (fun c => mf < flux c.1 c.2.1 c.2.2) := by
  unfold keptEntries
  rw [List.map_map]
  have hcomp : (Prod.fst ∘ fun c : Coord => (c, flux c.1 c.2.1 c.2.2)) = id := rfl
  rw [hcomp, List.map_id]

theorem nodup_keptCoords (nz ny nx : Nat) (flux : Nat → Nat → Nat → Int) (mf : Int) :
    ((keptEntries nz ny nx flux mf).map Prod.fst).Nodup := by
  rw [keptCoords_eq]
  exact List.Nodup.filter _ (nodup_ravelCoords nz ny nx)

theorem procPairs_coord_pairwise (nz ny nx : Nat) (flux : Nat → Nat → Nat → Int)
    (mf : Int) :
    List.Pairwise (fun p q => p.2.1 ≠ q.2.1)
      (procPairs (keptEntries nz ny nx flux mf)) := by
  have hfst : List.Pairwise (fun p q => p.1 ≠ q.1)
      (procPairs (keptEntries nz ny nx flux mf)) :=
    List.pairwise_map.mp (procPairs_fst_nodup _)
  refine hfst.imp_of_mem ?_
  intro p q hp hq hne he
  have hgp := procPairs_sound _ p hp
  have hgq := procPairs_sound _ q hq
  have hcp : ((keptEntries nz ny nx flux mf).map Prod.fst).get? p.1 = some p.2.1 := by
    rw [List.get?_map, hgp]
    rfl
  have hcq : ((keptEntries nz ny nx flux mf).map Prod.fst).get? q.1 = some q.2.1 := by
    rw [List.get?_map, hgq]
    rfl
  have hlen : p.1 < ((keptEntries nz ny nx flux mf).map Prod.fst).length := by
    rcases List.get?_eq_some.mp hcp with ⟨h, _⟩
    exact h
  apply hne
  apply List.get?_inj hlen (nodup_keptCoords nz ny nx flux mf)
  rw [hcp, hcq, he]

theorem procPairs_inCube (nz ny nx : Nat) (flux : Nat → Nat → Nat → Int) (mf : Int) :
    ∀ p ∈ procPairs (keptEntries nz ny nx flux mf),
      p.2.1.1 < nz ∧ p.2.1.2.1 < ny ∧ p.2.1.2.2 < nx := by
  intro p hp
  have hg := procPairs_sound _ p hp
  have hmem : p.2 ∈ keptEntries nz ny nx flux mf := List.get?_mem hg
  have hcmem : p.2.1 ∈ (keptEntries nz ny nx flux mf).map Prod.fst :=
    List.mem_map.mpr ⟨p.2, hmem, rfl⟩
  rw [keptCoords_eq] at hcmem
  have := (List.mem_filter.mp hcmem).1
  exact (mem_ravelCoords nz ny nx p.2.1).mp this

/-! ### The invariant holds after every prefix of the scan -/

theorem scanInv_fold (nz ny nx : Nat) (mnp md : Int)
    (l : List (Nat × (Coord × Int)))
    (hfst : (l.map Prod.fst).Nodup)
    (hcoord : List.Pairwise (fun p q => p.2.1 ≠ q.2.1) l)
    (hcube : ∀ p ∈ l, p.2.1.1 < nz ∧ p.2.1.2.1 < ny ∧ p.2.1.2.2 < nx) :
    ScanInv nz ny nx (l.map Prod.fst) (l.map (fun p => p.2.1))
      (scanPrefix nz ny nx mnp md l) := by
  induction l using List.reverseRecOn with
  | nil => exact scanInv_init nz ny nx
  | append_singleton l1 p ih =>
      rw [List.map_append] at hfst
      rcases List.nodup_append.mp hfst with ⟨hnd1, _, hdisj⟩
      have hpairw := hcoord
      rw [List.pairwise_append] at hpairw
      rcases hpairw with ⟨hpw1, _, hcross⟩
      have hinv1 := ih hnd1 hpw1
        (fun q hq => hcube q (List.mem_append.mpr (Or.inl hq)))
      have hstep : scanPrefix nz ny nx mnp md (l1 ++ [p]) =
          step nz ny nx mnp md (scanPrefix nz ny nx mnp md l1) p := by
        unfold scanPrefix
        rw [List.foldl_append]
        rfl
      have hiD : p.1 ∉ l1.map Prod.fst := by
        intro hx
        exact hdisj hx (by simp)
      have hcC : p.2.1 ∉ l1.map (fun q => q.2.1) := by
        intro hx
        rcases List.mem_map.mp hx with ⟨q, hq, he⟩
        exact hcross q hq p (by simp) (by rw [he])
      have hcube2 := hcube p (List.mem_append.mpr (Or.inr (by simp)))
      have hres := scanInv_step nz ny nx mnp md _ _ _ hinv1 p.1 p.2.1 p.2.2
        hiD hcC hcube2.1 hcube2.2.1 hcube2.2.2
      rw [hstep, List.map_append, List.map_append]
      exact (show step nz ny nx mnp md (scanPrefix nz ny nx mnp md l1)
          (p.1, (p.2.1, p.2.2)) = step nz ny nx mnp md _ p by rw [show
          (p.1, (p.2.1, p.2.2)) = p by rfl]) ▸ hres

theorem scanInv_prefix (nz ny nx : Nat) (flux : Nat → Nat → Nat → Int)
    (mf mnp md : Int) (l1 l2 : List (Nat × (Coord × Int)))
    (hsplit : procPairs (keptEntries nz ny nx flux mf) = l1 ++ l2) :
    ScanInv nz ny nx (l1.map Prod.fst) (l1.map (fun p => p.2.1))
      (scanPrefix nz ny nx mnp md l1) := by
  have hsub : l1.Sublist (procPairs (keptEntries nz ny nx flux mf)) := by
    rw [hsplit]
    exact List.sublist_append_left l1 l2
  apply scanInv_fold
  · exact List.Nodup.sublist (hsub.map Prod.fst) (procPairs_fst_nodup _)
  · exact List.Pairwise.sublist hsub (procPairs_coord_pairwise nz ny nx flux mf)
  · intro p hp
    exact procPairs_inCube nz ny nx flux mf p (hsub.mem hp)

/-! ### Consequences: resolution, sentinel reads, pruning lookups -/

theorem resolveFuel_flat (anc : AncMap)
    (hflat : ∀ k p, anc k = some p → anc p = none) :
    ∀ (n a : Nat), resolveFuel anc (n + 1) a = singleStepAnc anc a := by
  intro n
  induction n with
  | zero =>
      intro a
      unfold resolveFuel singleStepAnc
      cases anc a <;> rfl
  | succ n ih =>
      intro a
      show (match anc a with
        | some p => resolveFuel anc (n + 1) p
        | none => a) = singleStepAnc anc a
      cases ha : anc a with
      | none => unfold singleStepAnc; rw [ha]
      | some p =>
          have hp := hflat a p ha
          show resolveFuel anc (n + 1) p = singleStepAnc anc a
          rw [ih p]
          unfold singleStepAnc
          rw [ha, hp]

theorem outOfCube_neighbor_sentinel (nz ny nx : Nat) (z y x : Nat)
    (h1 : z < nz) (h2 : y < ny) (h3 : x < nx)
    (nb : Int × Int × Int) (hnb : nb ∈ neighborCoords (z, y, x))
    (hout : outOfCube nz ny nx nb) :
    pyWrap nz nb.1 = nz ∨ pyWrap ny nb.2.1 = ny ∨ pyWrap nx nb.2.2 = nx := by
  simp only [neighborCoords, List.mem_cons, List.not_mem_nil, or_false] at hnb
  unfold outOfCube at hout
  rcases hnb with rfl | rfl | rfl | rfl | rfl | rfl <;>
    (dsimp only at hout ⊢
     rcases hout with h | h | h | h | h | h <;>
       first
         | (exfalso; omega)
         | (left; unfold pyWrap; split <;> omega)
         | (right; left; unfold pyWrap; split <;> omega)
         | (right; right; unfold pyWrap; split <;> omega))

theorem keys_pruneItems_sublist (mnp md : Int) (its : List (Nat × Item)) :
    ((pruneItems mnp md its).map Prod.fst).Sublist (its.map Prod.fst) :=
  List.Sublist.map Prod.fst (List.filter_sublist its)

theorem lookup_pruneItems_none (mnp md : Int) (its : List (Nat × Item))
    (hnd : (its.map Prod.fst).Nodup) (k : Nat) (it : Item)
    (h : lookupItem its k = some it) (hleaf : it.isLeaf = true)
    (hfail : (it.npix : Int) < mnp ∨ it.fmax - it.fmin < md) :
    lookupItem (pruneItems mnp md its) k = none := by
  induction its with
  | nil => simp [lookupItem] at h
  | cons p r ih =>
      obtain ⟨k1, it1⟩ := p
      simp only [List.map_cons] at hnd
      rcases List.nodup_cons.mp hnd with ⟨hk1, hndr⟩
      unfold pruneItems at ih ⊢
      rw [List.filter_cons]
      by_cases hk : k1 = k
      · subst hk
        have hit : it1 = it := by
          simpa [lookupItem] using h
        subst hit
        have hpred : (!(it1.isLeaf && (decide ((it1.npix : Int) < mnp) ||
            decide (it1.fmax - it1.fmin < md)))) = false := by
          rcases hfail with hf | hf <;> simp [hleaf, hf]
        rw [hpred]
        simp only [Bool.false_eq_true, if_false]
        rw [lookupItem_eq_none_iff]
        intro hx
        exact hk1 ((keys_pruneItems_sublist mnp md r).mem hx)
      · have hr : lookupItem r k = some it := by
          simpa [lookupItem, hk] using h
        have hrec := ih hndr hr
        cases hpred : (!(it1.isLeaf && (decide ((it1.npix : Int) < mnp) ||
            decide (it1.fmax - it1.fmin < md)))) with
        | false =>
            simp only [Bool.false_eq_true, if_false]
            exact hrec
        | true =>
            simp only [if_true]
            rw [show lookupItem ((k1, it1) :: List.filter _ r) k
                = lookupItem (List.filter (fun p =>
                    !(p.2.isLeaf && (decide ((p.2.npix : Int) < mnp) ||
                      decide (p.2.fmax - p.2.fmin < md)))) r) k by
              simp [lookupItem, hk]]
            exact hrec

/-! ### C5 (amended) — ids are positive, fresh and never reused -/

/-- C5 (amended): at the end of the scan the structure table's keys are
pairwise distinct (an id is never reused for a second live structure), and
every id is `j + 1` for some filtered-array index `j` — in particular
positive and never 0.  (Monotonicity in creation order fails; see the
counterexample.) -/
theorem C5_ids_positive_unique (nz ny nx : Nat) (flux : Nat → Nat → Nat → Int)
    (mf mnp md : Int) :
    ((scanResult nz ny nx flux mf mnp md).items.map Prod.fst).Nodup ∧
    (∀ k, (lookupItem (scanResult nz ny nx flux mf mnp md).items k).isSome = true →
      k ≠ 0 ∧ ∃ j, j < (keptEntries nz ny nx flux mf).length ∧ k = j + 1) := by
  have hinv := scanInv_prefix nz ny nx flux mf mnp md
    (procPairs (keptEntries nz ny nx flux mf)) [] (by rw [List.append_nil])
  unfold scanResult
  refine ⟨hinv.keysNodup, ?_⟩
  intro k hk
  rcases hinv.keysFrom k hk with ⟨j, hj, he⟩
  have hjidx : j ∈ procIdx (keptEntries nz ny nx flux mf) :=
    (procPairs_fst_sublist _).subset hj
  have hjlt := (mem_procIdx _ j).mp hjidx
  exact ⟨by omega, j, hjlt, he⟩

/-! ### C10 — the ancestor map stays flat; one step fully resolves -/

/-- C10: after any prefix of the Step-1 scan the ancestor map is flat —
whenever `ancestor[k] = p` (not `None`) then `ancestor[p] = None` — so the
scan's single-step neighbour lookup agrees with fully resolving the
ancestor chain with any amount of fuel. -/
theorem C10_ancestor_flat (nz ny nx : Nat) (flux : Nat → Nat → Nat → Int)
    (mf mnp md : Int) (l1 l2 : List (Nat × (Coord × Int)))
    (hsplit : procPairs (keptEntries nz ny nx flux mf) = l1 ++ l2) :
    (∀ k p, (scanPrefix nz ny nx mnp md l1).anc k = some p →
      (scanPrefix nz ny nx mnp md l1).anc p = none) ∧
    (∀ (a n : Nat), resolveFuel (scanPrefix nz ny nx mnp md l1).anc (n + 1) a =
      singleStepAnc (scanPrefix nz ny nx mnp md l1).anc a) := by
  have hinv := scanInv_prefix nz ny nx flux mf mnp md l1 l2 hsplit
  exact ⟨hinv.flat, fun a n => resolveFuel_flat _ hinv.flat n a⟩

/-- Witness for C10: the full (one-voxel) scan of the constant 1×1×1 cube. -/
theorem C10_ancestor_flat_wit :
    (procPairs (keptEntries 1 1 1 oneflux 0) = [(0, ((0, 0, 0), 1))] ++ []) ∧
    ((∀ k p, (scanPrefix 1 1 1 0 0 [(0, ((0, 0, 0), 1))]).anc k = some p →
      (scanPrefix 1 1 1 0 0 [(0, ((0, 0, 0), 1))]).anc p = none) ∧
     (∀ (a n : Nat),
       resolveFuel (scanPrefix 1 1 1 0 0 [(0, ((0, 0, 0), 1))]).anc (n + 1) a =
       singleStepAnc (scanPrefix 1 1 1 0 0 [(0, ((0, 0, 0), 1))]).anc a)) :=
  ⟨by decide,
   C10_ancestor_flat 1 1 1 oneflux 0 0 0 [(0, ((0, 0, 0), 1))] [] (by decide)⟩

/-! ### C8 — neighbour reads are in bounds; sentinels stay zero -/

/-- C8: every neighbour read of an in-cube voxel is an in-bounds python
access of the padded index array; throughout Step 1 (after any prefix of
the scan) the sentinel planes hold 0, and an out-of-cube neighbour read
lands on a sentinel cell and returns 0. -/
theorem C8_neighbor_reads (nz ny nx : Nat) (flux : Nat → Nat → Nat → Int)
    (mf mnp md : Int) (l1 l2 : List (Nat × (Coord × Int)))
    (hsplit : procPairs (keptEntries nz ny nx flux mf) = l1 ++ l2) :
    (∀ z y x : Nat, z < nz → y < ny → x < nx →
      ∀ nb ∈ neighborCoords (z, y, x),
        pyInBounds nz nb.1 ∧ pyInBounds ny nb.2.1 ∧ pyInBounds nx nb.2.2) ∧
    (∀ a b d : Nat, (a = nz ∨ b = ny ∨ d = nx) →
      (scanPrefix nz ny nx mnp md l1).map a b d = 0) ∧
    (∀ z y x : Nat, z < nz → y < ny → x < nx →
      ∀ nb ∈ neighborCoords (z, y, x), outOfCube nz ny nx nb →
        readPadded nz ny nx (scanPrefix nz ny nx mnp md l1).map nb = 0) := by
  have hinv := scanInv_prefix nz ny nx flux mf mnp md l1 l2 hsplit
  refine ⟨?_, hinv.sentinel, ?_⟩
  · intro z y x hz hy hx nb hnb
    simp only [neighborCoords, List.mem_cons, List.not_mem_nil, or_false] at hnb
    rcases hnb with rfl | rfl | rfl | rfl | rfl | rfl <;>
      (dsimp only
       unfold pyInBounds
       exact ⟨⟨by omega, by omega⟩, ⟨by omega, by omega⟩, by omega, by omega⟩)
  · intro z y x hz hy hx nb hnb hout
    have hsent := outOfCube_neighbor_sentinel nz ny nx z y x hz hy hx nb hnb hout
    show (scanPrefix nz ny nx mnp md l1).map (pyWrap nz nb.1) (pyWrap ny nb.2.1)
      (pyWrap nx nb.2.2) = 0
    exact hinv.sentinel _ _ _ hsent

/-- Witness for C8: the one-voxel scan of the constant 1×1×1 cube. -/
theorem C8_neighbor_reads_wit :
    (procPairs (keptEntries 1 1 1 oneflux 0) = [(0, ((0, 0, 0), 1))] ++ []) ∧
    ((∀ z y x : Nat, z < 1 → y < 1 → x < 1 →
      ∀ nb ∈ neighborCoords (z, y, x),
        pyInBounds 1 nb.1 ∧ pyInBounds 1 nb.2.1 ∧ pyInBounds 1 nb.2.2) ∧
    (∀ a b d : Nat, (a = 1 ∨ b = 1 ∨ d = 1) →
      (scanPrefix 1 1 1 0 0 [(0, ((0, 0, 0), 1))]).map a b d = 0) ∧
    (∀ z y x : Nat, z < 1 → y < 1 → x < 1 →
      ∀ nb ∈ neighborCoords (z, y, x), outOfCube 1 1 1 nb →
        readPadded 1 1 1 (scanPrefix 1 1 1 0 0 [(0, ((0, 0, 0), 1))]).map nb = 0)) :=
  ⟨by decide,
   C8_neighbor_reads 1 1 1 oneflux 0 0 0 [(0, ((0, 0, 0), 1))] [] (by decide)⟩

/-! ### C9 — the Step-2 prune does not touch the index map -/

/-- C9: the published index map is exactly the Step-1 map — the prune and
the assembly never rewrite it — and for every leaf that the prune removes
(a Leaf failing `npix < min_npix or fmax - fmin < min_delta`), every voxel
it owned still reads back that leaf's id from the final index map. -/
theorem C9_prune_preserves_index_map (nz ny nx : Nat)
    (flux : Nat → Nat → Nat → Int) (mf mnp md : Int) :
    (compute nz ny nx flux mf mnp md).indexMap =
      (scanResult nz ny nx flux mf mnp md).map ∧
    (∀ k it, lookupItem (scanResult nz ny nx flux mf mnp md).items k = some it →
      it.isLeaf = true →
      ((it.npix : Int) < mnp ∨ it.fmax - it.fmin < md) →
      lookupItem (compute nz ny nx flux mf mnp md).items k = none ∧
      ∀ v ∈ it.voxels,
        readCube (compute nz ny nx flux mf mnp md).indexMap v = k) := by
  have hinv := scanInv_prefix nz ny nx flux mf mnp md
    (procPairs (keptEntries nz ny nx flux mf)) [] (by rw [List.append_nil])
  refine ⟨rfl, ?_⟩
  intro k it hk hleaf hfail
  constructor
  · show lookupItem (pruneItems mnp md (scanResult nz ny nx flux mf mnp md).items)
      k = none
    exact lookup_pruneItems_none mnp md _ hinv.keysNodup k it hk hleaf hfail
  · intro v hv
    show readCube (scanResult nz ny nx flux mf mnp md).map v = k
    exact (hinv.footprint k it hk v hv).2.2.2

/-- Witness for C9: the pruned child leaf 1 of the `c2flux` run. -/
theorem C9_prune_preserves_index_map_wit :
    (lookupItem (scanResult 1 1 4 c2flux 0 0 2).items 1 =
      some ⟨true, 2, 9, 10, [(0, 0, 0), (0, 0, 1)], []⟩ ∧
     (⟨true, 2, 9, 10, [(0, 0, 0), (0, 0, 1)], []⟩ : Item).isLeaf = true ∧
     (((⟨true, 2, 9, 10, [(0, 0, 0), (0, 0, 1)], []⟩ : Item).npix : Int) < 0 ∨
       (⟨true, 2, 9, 10, [(0, 0, 0), (0, 0, 1)], []⟩ : Item).fmax -
         (⟨true, 2, 9, 10, [(0, 0, 0), (0, 0, 1)], []⟩ : Item).fmin < 2)) ∧
    ((compute 1 1 4 c2flux 0 0 2).indexMap = (scanResult 1 1 4 c2flux 0 0 2).map ∧
     (lookupItem (compute 1 1 4 c2flux 0 0 2).items 1 = none ∧
      ∀ v ∈ (⟨true, 2, 9, 10, [(0, 0, 0), (0, 0, 1)], []⟩ : Item).voxels,
        readCube (compute 1 1 4 c2flux 0 0 2).indexMap v = 1)) :=
  ⟨⟨by decide, by decide, by decide⟩,
   (C9_prune_preserves_index_map 1 1 4 c2flux 0 0 2).1,
   (C9_prune_preserves_index_map 1 1 4 c2flux 0 0 2).2 1
     ⟨true, 2, 9, 10, [(0, 0, 0), (0, 0, 1)], []⟩
     (by decide) (by decide) (by decide)⟩
